import Mathlib

/-!
Verification of the Hyderabad Metro backend core (graph builder and route
search from `main.py`, record shapes from `schemas.py` / `models.py`).

The Python code is shallowly embedded: lines and stations are plain records,
the adjacency structure is the ordered list of (source id, target id, edge)
triples in exactly the insertion order of `MetroGraph._build_graph`, and the
modified Dijkstra of `MetroGraph.find_shortest_path` is a fuel-driven loop
whose priority queue is a list popped at its minimum with respect to the
lexicographic order Python uses on the pushed tuples.  Money and time are
rationals: every value the program manipulates is a small dyadic rational
(multiples of 0.5), on which Python float arithmetic and comparison are
exact, so the rational embedding is faithful.
-/

/-- Record for a metro line (`models.Line`): id, unique name, display color. -/
structure Line where
  id : Nat
  name : String
  color : String
deriving DecidableEq

/-- Record for a station (`models.Station`).  `station_number_on_line` is the
1-based sequence of the station on its line (kept as an integer, since
malformed inputs with negative sequence numbers are part of claim C3). -/
structure Station where
  id : Nat
  name : String
  line_id : Nat
  distance_from_previous_station : Option ℚ
  station_number_on_line : Int
  is_interchange : Bool
deriving DecidableEq

/-- Edge weight dictionaries of `_build_graph`.  A ride edge carries the keys
`stations=1, time, fare, line_id`; a transfer edge carries
`stations=0, time, fare, line_change=True, from_line_id, to_line_id`.
The constant `stations` entry is exposed through `Edge.stationsDelta`. -/
inductive Edge where
  | ride (timeMinutes fareField : ℚ) (line_id : Nat)
  | transfer (timeMinutes fareField : ℚ) (from_line_id to_line_id : Nat)
deriving DecidableEq

/-- The `stations` entry of the edge weight dictionary: 1 for a ride edge,
0 for a transfer edge. -/
def Edge.stationsDelta : Edge → Nat
  | .ride _ _ _ => 1
  | .transfer _ _ _ _ => 0

/-- The dictionary `self.station_map` of `MetroGraph`: all stations carrying a
given name, in insertion (input) order. -/
def station_map (stations : List Station) (n : String) : List Station :=
  stations.filter (fun s => s.name = n)

/-- Helper for the iteration order of a Python dict's keys: first occurrence
order of the names. -/
def dedupFirstAux (seen : List String) : List String → List String
  | [] => []
  | a :: l => if a ∈ seen then dedupFirstAux seen l else a :: dedupFirstAux (a :: seen) l

/-- Keys of `self.station_map` in Python dict iteration order (order of first
insertion, i.e. first occurrence of each name in the station list). -/
def mapKeys (stations : List Station) : List String :=
  dedupFirstAux [] (stations.map (fun s => s.name))

/-- The consecutive pairs `(sorted_stations[i], sorted_stations[i+1])`
enumerated by the ride-edge loop of `_build_graph`. -/
def consecPairs {α : Type} : List α → List (α × α)
  | a :: b :: l => (a, b) :: consecPairs (b :: l)
  | _ => []

/-- The stations of one line sorted by `station_number_on_line` (Python's
`sorted` is stable; insertion sort on a total preorder is the same stable
sort). -/
def sortedStationsOnLine (line : Line) (stations : List Station) : List Station :=
  List.insertionSort (fun a b => a.station_number_on_line ≤ b.station_number_on_line)
    (stations.filter (fun s => s.line_id = line.id))

/-- Ride edges contributed by one line in `_build_graph`: both directions
between sequence-adjacent stations, `stations=1`, `time=2.5`, and the (unused
by the search) fare field `5.0 if s.station_number_on_line >= 2 else 0.0`. -/
def ride_edges_for_line (line : Line) (stations : List Station) : List (Nat × Nat × Edge) :=
  (consecPairs (sortedStationsOnLine line stations)).flatMap (fun p =>
    [(p.1.id, p.2.id,
        Edge.ride (5/2) (if (2:Int) ≤ p.1.station_number_on_line then 5 else 0) line.id),
     (p.2.id, p.1.id,
        Edge.ride (5/2) (if (2:Int) ≤ p.2.station_number_on_line then 5 else 0) line.id)])

/-- Ordered pairs `(g[i], g[j])` with `i < j`, in the order of the two nested
index loops of the transfer-edge construction. -/
def listPairs {α : Type} : List α → List (α × α)
  | [] => []
  | a :: l => l.map (fun b => (a, b)) ++ listPairs l

/-- Transfer edges for one same-name group: for each `i < j` pair on different
lines, both directions with `stations=0`, `time=5.0`, `fare=2.0`. -/
def transfer_edges_for_group (g : List Station) : List (Nat × Nat × Edge) :=
  (listPairs g).flatMap (fun p =>
    if p.1.line_id ≠ p.2.line_id then
      [(p.1.id, p.2.id, Edge.transfer 5 2 p.1.line_id p.2.line_id),
       (p.2.id, p.1.id, Edge.transfer 5 2 p.2.line_id p.1.line_id)]
    else [])

/-- Transfer edges contributed by one station name: created exactly when the
name group has more than one member and every member is flagged interchange. -/
def transfer_edges_for_name (stations : List Station) (n : String) : List (Nat × Nat × Edge) :=
  if 1 < (station_map stations n).length ∧
      (∀ s ∈ station_map stations n, s.is_interchange = true) then
    transfer_edges_for_group (station_map stations n)
  else []

/-- The full adjacency content of `MetroGraph._build_graph`: all ride edges
(line by line), then all transfer edges (name group by name group), as
(source id, target id, edge) triples in insertion order. -/
def build_graph (lines : List Line) (stations : List Station) : List (Nat × Nat × Edge) :=
  (lines.flatMap (fun l => ride_edges_for_line l stations)) ++
  ((mapKeys stations).flatMap (fun n => transfer_edges_for_name stations n))

/-- Adjacency list `self.graph[sid]`: targets and edges of all triples whose
source is `sid`, in insertion order. -/
def adjOf (edges : List (Nat × Nat × Edge)) (sid : Nat) : List (Nat × Edge) :=
  (edges.filter (fun t => t.1 = sid)).map (fun t => t.2)

/-- Placeholder station for total lookups (the Python dict lookups it stands
in for are only performed at keys that are present). -/
def defaultStation : Station := ⟨0, "", 0, none, 0, false⟩

/-- The dictionary `self.station_id_to_obj`: station by id, the last record
with that id winning, as when a Python dict is filled by iteration. -/
def station_id_to_obj (stations : List Station) (sid : Nat) : Station :=
  ((stations.reverse).find? (fun s => s.id = sid)).getD defaultStation

/-- Name of the line a station's `line` relationship resolves to (the line
record whose id matches the station's foreign key). -/
def line_name_of (lines : List Line) (lid : Nat) : String :=
  ((lines.find? (fun l => l.id = lid)).map (fun l => l.name)).getD ""

/-- Response record `schemas.LineChangeDetail` (fields `from`, `to`, `at`,
renamed because they are Lean keywords). -/
structure LineChangeDetail where
  from_line : String
  toLine : String
  atStation : String
deriving DecidableEq

/-- Response record `schemas.RouteResponse` as produced by
`find_shortest_path` / the route endpoint. -/
structure RouteResult where
  route : List String
  totalStations : Nat
  totalFare : ℚ
  interchanges : List String
  estimatedTime : String
  lineChanges : List LineChangeDetail
deriving DecidableEq

/-- A priority-queue element: the 7-tuple
`(stations_count, station_id, path_ids, fare, time, line_id,
stations_in_segment_for_fare)` pushed on the heap. -/
structure Entry where
  cnt : Nat
  sid : Nat
  path : List Nat
  fare : ℚ
  time : ℚ
  line : Nat
  seg : Nat
deriving DecidableEq

/-- A value of the `path_info` dictionary. -/
structure Info where
  path_ids : List Nat
  fare : ℚ
  time : ℚ
  current_line_id : Nat
  stations_in_segment : Nat
  interchanges : List String
  line_changes : List LineChangeDetail
deriving DecidableEq

/-- Placeholder for total `path_info` lookups (the Python lookups are only
performed at keys that are present). -/
def defaultInfo : Info := ⟨[], 0, 0, 0, 0, [], []⟩

/-- The best result found so far across the per-start-node runs
(`min_total_stations`, `best_path_ids`, `best_fare`, `best_time`,
`best_interchanges`, `best_line_changes`); `none` encodes the initial
`min_total_stations = inf`, `best_path_ids = []` state. -/
structure Candidate where
  cnt : Nat
  path : List Nat
  fare : ℚ
  time : ℚ
  interchanges : List String
  line_changes : List LineChangeDetail
deriving DecidableEq

/-- The per-run mutable state of one Dijkstra run: the heap contents, the
`distances` dict (`none` = infinity), the `path_info` dict, and the visited
set. -/
structure RunState where
  pq : List Entry
  dist : Nat → Option Nat
  info : Nat → Option Info
  visited : List Nat

/-- Python lexicographic `<` on `list[int]`. -/
def listLtNat : List Nat → List Nat → Bool
  | _, [] => false
  | [], _ :: _ => true
  | a :: as, b :: bs => if a < b then true else if b < a then false else listLtNat as bs

/-- Python lexicographic `<=` on the 7-tuples pushed on the heap.  `heapq`
always pops a minimum with respect to this order (fully equal tuples are
interchangeable values, so which one is popped is unobservable). -/
def entryLe (a b : Entry) : Bool :=
  if a.cnt ≠ b.cnt then decide (a.cnt < b.cnt)
  else if a.sid ≠ b.sid then decide (a.sid < b.sid)
  else if a.path ≠ b.path then listLtNat a.path b.path
  else if a.fare ≠ b.fare then decide (a.fare < b.fare)
  else if a.time ≠ b.time then decide (a.time < b.time)
  else if a.line ≠ b.line then decide (a.line < b.line)
  else decide (a.seg ≤ b.seg)

/-- Pop a minimal entry (first such occurrence) from the queue, returning it
and the remaining queue; `heapq.heappop` on the heap holding the same
multiset of tuples returns the same tuple. -/
def popMin : List Entry → Option (Entry × List Entry)
  | [] => none
  | a :: rest =>
    match popMin rest with
    | none => some (a, [])
    | some (m, r) => if entryLe a m then some (a, rest) else some (m, a :: r)

/-- Combined traversal state of one partial path, holding every quantity the
relaxation step of `find_shortest_path` maintains (tuple fields plus the
interchange and line-change lists kept in `path_info`). -/
structure TState where
  cur : Nat
  cnt : Nat
  path : List Nat
  fare : ℚ
  time : ℚ
  line : Nat
  seg : Nat
  inter : List String
  lchs : List LineChangeDetail
deriving DecidableEq

/-- The relaxation arithmetic of `find_shortest_path` (lines 162-198 of
`main.py`) for traversing one edge to neighbor `nbr`:
transfer edge: fare += edge fare, time += edge time, line := to_line_id,
interchange name of the current station appended if absent, a line-change
record appended, segment counter reset to 0;
ride edge: time += edge time, line := edge line_id, segment counter
incremented, fare += 0 if the new counter is at most 2 else 5.0;
in both cases the station count grows by the edge's `stations` entry and the
neighbor id is appended to the path.
Caveat (claim C4): in the source the transfer branch never completes.  The
line-change record is constructed with the invalid keyword `_from`
(`pydantic_call_ok` models the failing validation), so that statement raises
and the whole request aborts; this function embeds the arithmetic those
lines specify as written.  Theorems about routes the program actually
returns therefore restrict to transfer-free walks (claim C1), and the runs
this model completes are a superset of the crash-free runs of the source
(claim C8). -/
def applyEdge (lines : List Line) (stations : List Station) (ts : TState) :
    Nat × Edge → TState
  | (nbr, Edge.transfer t f _a b) =>
      let u := station_id_to_obj stations ts.cur
      { cur := nbr
        cnt := ts.cnt + 0
        path := ts.path ++ [nbr]
        fare := ts.fare + f
        time := ts.time + t
        line := b
        seg := 0
        inter := if u.name ∈ ts.inter then ts.inter else ts.inter ++ [u.name]
        lchs := ts.lchs ++
          [⟨line_name_of lines u.line_id,
            line_name_of lines (station_id_to_obj stations nbr).line_id, u.name⟩] }
  | (nbr, Edge.ride t _f lid) =>
      { cur := nbr
        cnt := ts.cnt + 1
        path := ts.path ++ [nbr]
        fare := ts.fare + (if ts.seg + 1 ≤ 2 then 0 else 5)
        time := ts.time + t
        line := lid
        seg := ts.seg + 1
        inter := ts.inter
        lchs := ts.lchs }

/-- Tuple part of a traversal state. -/
def entryOfT (ts : TState) : Entry := ⟨ts.cnt, ts.cur, ts.path, ts.fare, ts.time, ts.line, ts.seg⟩

/-- The `path_info` value of a traversal state. -/
def infoOfT (ts : TState) : Info :=
  ⟨ts.path, ts.fare, ts.time, ts.line, ts.seg, ts.inter, ts.lchs⟩

/-- Completion-candidate part of a traversal state. -/
def candOfT (ts : TState) : Candidate := ⟨ts.cnt, ts.path, ts.fare, ts.time, ts.inter, ts.lchs⟩

/-- Reassemble the traversal state from a popped tuple and the `path_info`
record of its station. -/
def tstateOf (e : Entry) (pi : Info) : TState :=
  ⟨e.sid, e.cnt, e.path, e.fare, e.time, e.line, e.seg, pi.interchanges, pi.line_changes⟩

/-- One relaxation: the new tuple to push and the new `path_info` value. -/
def relaxed (lines : List Line) (stations : List Station) (e : Entry) (pi : Info)
    (nbr : Nat) (ew : Edge) : Entry × Info :=
  let ts := applyEdge lines stations (tstateOf e pi) (nbr, ew)
  (entryOfT ts, infoOfT ts)

/-- The relaxation guard `new_total_stations_count < distances.get(neighbor_id,
float('inf'))`. -/
def ltDist : Option Nat → Nat → Bool
  | none, _ => true
  | some d, c => decide (c < d)

/-- Update one key of a dictionary. -/
def setMap {α : Type} (m : Nat → Option α) (k : Nat) (v : α) : Nat → Option α :=
  fun x => if x = k then some v else m x

/-- The body of the neighbor loop after computing the candidate tuple `ne` and
`path_info` record `ni`: replace the neighbor's records and push exactly when
the new station count is strictly smaller than the recorded distance. -/
def considerNeighbor (dist : Nat → Option Nat) (info : Nat → Option Info)
    (pq : List Entry) (nbr : Nat) (ne : Entry) (ni : Info) :
    (Nat → Option Nat) × (Nat → Option Info) × List Entry :=
  if ltDist (dist nbr) ne.cnt then (setMap dist nbr ne.cnt, setMap info nbr ni, pq ++ [ne])
  else (dist, info, pq)

/-- One iteration of the neighbor loop: compute the relaxation (re-reading
the `path_info` record of the popped station, as the source does each
iteration) and apply the strict-improvement guard. -/
def relaxStep (lines : List Line) (stations : List Station) (e : Entry)
    (nbr : Nat) (ew : Edge) (dist : Nat → Option Nat) (info : Nat → Option Info)
    (pq : List Entry) : (Nat → Option Nat) × (Nat → Option Info) × List Entry :=
  considerNeighbor dist info pq nbr
    (relaxed lines stations e ((info e.sid).getD defaultInfo) nbr ew).1
    (relaxed lines stations e ((info e.sid).getD defaultInfo) nbr ew).2

/-- The neighbor loop of `find_shortest_path`, folded over the adjacency list
of the popped station. -/
def relaxAll (lines : List Line) (stations : List Station) (e : Entry) :
    List (Nat × Edge) → (Nat → Option Nat) → (Nat → Option Info) → List Entry →
    (Nat → Option Nat) × (Nat → Option Info) × List Entry
  | [], dist, info, pq => (dist, info, pq)
  | (nbr, ew) :: rest, dist, info, pq =>
      relaxAll lines stations e rest
        (relaxStep lines stations e nbr ew dist info pq).1
        (relaxStep lines stations e nbr ew dist info pq).2.1
        (relaxStep lines stations e nbr ew dist info pq).2.2

/-- Completion-candidate bookkeeping: the shared best result is replaced only
when the new station count is strictly smaller (`current_stations_count <
min_total_stations`, with `none` standing for the initial infinity). -/
def updateBest (best : Option Candidate) (c : Candidate) : Option Candidate :=
  match best with
  | none => some c
  | some b => if c.cnt < b.cnt then some c else some b

/-- One iteration of the `while pq` loop, after popping `e` (with `rest` the
remaining queue): skip if visited, otherwise mark visited and either record a
completion candidate (when the station's name is the destination) or relax all
outgoing edges. -/
def loopStep (lines : List Line) (stations : List Station)
    (edges : List (Nat × Nat × Edge)) (endName : String) (e : Entry)
    (rest : List Entry) (s : RunState) (best : Option Candidate) :
    RunState × Option Candidate :=
  if e.sid ∈ s.visited then ({ s with pq := rest }, best)
  else if (station_id_to_obj stations e.sid).name = endName then
    ({ s with pq := rest, visited := e.sid :: s.visited },
     updateBest best ⟨e.cnt, e.path, e.fare, e.time,
       ((s.info e.sid).getD defaultInfo).interchanges,
       ((s.info e.sid).getD defaultInfo).line_changes⟩)
  else
    (⟨(relaxAll lines stations e (adjOf edges e.sid) s.dist s.info rest).2.2,
      (relaxAll lines stations e (adjOf edges e.sid) s.dist s.info rest).1,
      (relaxAll lines stations e (adjOf edges e.sid) s.dist s.info rest).2.1,
      e.sid :: s.visited⟩, best)

/-- The `while pq` loop, driven by fuel (the fuel passed by
`find_shortest_path` is large enough that the loop always drains the queue;
every theorem below about the search is independent of the amount of fuel). -/
def runLoop (lines : List Line) (stations : List Station)
    (edges : List (Nat × Nat × Edge)) (endName : String) :
    Nat → RunState → Option Candidate → Option Candidate
  | 0, _, best => best
  | Nat.succ fuel, s, best =>
    match popMin s.pq with
    | none => best
    | some (e, rest) =>
      runLoop lines stations edges endName fuel
        (loopStep lines stations edges endName e rest s best).1
        (loopStep lines stations edges endName e rest s best).2

/-- Initial run state for one start node: the queue holds
`(0, id, [id], 0.0, 0.0, line_id, 1)`, `distances[id] = 0`, and `path_info`
is seeded for the start node. -/
def initState (st : Station) : RunState :=
  ⟨[⟨0, st.id, [st.id], 0, 0, st.line_id, 1⟩],
   fun sid => if sid = st.id then some 0 else none,
   fun sid => if sid = st.id then some ⟨[st.id], 0, 0, st.line_id, 1, [], []⟩ else none,
   []⟩

/-- Rendering of the Python floats reaching `f"{best_time} minutes"`: every
accumulated time is a multiple of 0.5, for which `repr` prints `"<n>.0"` or
`"<n>.5"` exactly. -/
def pyFloatRepr (q : ℚ) : String :=
  if q.den = 1 then toString q.num ++ ".0"
  else if q.den = 2 then toString (q.num / 2) ++ ".5"
  else toString q.num ++ " div " ++ toString q.den

/-- Fuel bound for one run: there is one initial push, at most one expansion
per distinct station id, and at most one push per adjacency entry during an
expansion, so the queue can never see more than this many pops. -/
def searchFuel (stations : List Station) (edges : List (Nat × Nat × Edge)) : Nat :=
  (stations.length + 1) * (edges.length + 1) + 1

/-- The Python `list(set(best_interchanges))` post-processing.  The list fed
to it never holds duplicates (names are appended only when absent), so the
set is a no-op up to the unspecified ordering Python gives it; the embedding
keeps first-occurrence order. -/
def pySetList (l : List String) : List String := dedupFirstAux [] l

/-- `MetroGraph.find_shortest_path`: runs one Dijkstra per station carrying
the start name (sharing the best candidate), then assembles the response,
adding the flat base fare 10.0 whenever the station count is positive. -/
def find_shortest_path (lines : List Line) (stations : List Station)
    (startName endName : String) : Option RouteResult :=
  if (station_map stations startName).isEmpty || (station_map stations endName).isEmpty then
    none
  else
    match (station_map stations startName).foldl
        (fun best st =>
          runLoop lines stations (build_graph lines stations) endName
            (searchFuel stations (build_graph lines stations)) (initState st) best)
        none with
    | none => none
    | some b =>
      some { route := b.path.map (fun sid => (station_id_to_obj stations sid).name)
             totalStations := b.cnt
             totalFare := b.fare + (if 0 < b.cnt then 10 else 0)
             interchanges := pySetList b.interchanges
             estimatedTime := pyFloatRepr b.time ++ " minutes"
             lineChanges := b.line_changes }

/-- Outcomes of the `/api/route/find` endpoint: a route response, a 400
"Invalid source/destination station name" error naming the missing station,
or the 404 "No route found" error. -/
inductive RouteOutcome where
  | ok (r : RouteResult)
  | unknownStation (name : String)
  | notFound
deriving DecidableEq

/-- Whether some station record carries the given name (the endpoint's
existence query against the station table). -/
def stationExists (stations : List Station) (n : String) : Bool :=
  stations.any (fun s => s.name = n)

/-- The zero-length route response returned when source equals destination. -/
def zeroRoute (x : String) : RouteResult := ⟨[x], 0, 0, [], "0 minutes", []⟩

/-- The `find_metro_route` endpoint (graph assumed freshly built from the same
records, as the management endpoints guarantee): equal names short-circuit to
the zero route before any validation; then each name is validated against the
station records (source first); then the search runs, `none` becoming the 404
not-found outcome. -/
def find_metro_route (lines : List Line) (stations : List Station)
    (source destination : String) : RouteOutcome :=
  if source = destination then .ok (zeroRoute source)
  else if stationExists stations source = false then .unknownStation source
  else if stationExists stations destination = false then .unknownStation destination
  else
    match find_shortest_path lines stations source destination with
    | none => .notFound
    | some r => .ok r

/-- Modelled from the spec (claim C3): the malformed-input conditions — a
station referencing an unknown line id, or a negative or duplicate sequence
number within one line.  The source builder contains no corresponding check
or raise; this predicate only formalises the claim's hypothesis. -/
def MalformedInput (lines : List Line) (stations : List Station) : Prop :=
  (∃ st ∈ stations, ∀ l ∈ lines, l.id ≠ st.line_id) ∨
  (∃ st ∈ stations, st.station_number_on_line < 0) ∨
  (∃ p ∈ listPairs stations, p.1.line_id = p.2.line_id ∧
      p.1.station_number_on_line = p.2.station_number_on_line)

/-- The builder embedded with an explicit error channel: `_build_graph`
contains no raise statement and no input validation whatsoever, so its
`Except`-valued embedding always returns `ok`. -/
def build_graph_result (lines : List Line) (stations : List Station) :
    Except String (List (Nat × Nat × Edge)) :=
  Except.ok (build_graph lines stations)

/-- Initial traversal state of a run started at station `st` (the seed tuple
and seed `path_info` record combined). -/
def initT (st : Station) : TState := ⟨st.id, 0, [st.id], 0, 0, st.line_id, 1, [], []⟩

/-- Traversal state after relaxing the edges of `tr` in order from the start
node `st`. -/
def runT (lines : List Line) (stations : List Station) (st : Station)
    (tr : List (Nat × Edge)) : TState :=
  tr.foldl (applyEdge lines stations) (initT st)

/-- The steps of `tr` form a chained walk through `edges` starting at node
`u`. -/
def TraceFrom (edges : List (Nat × Nat × Edge)) : Nat → List (Nat × Edge) → Prop
  | _, [] => True
  | u, (nbr, ew) :: tr => (u, nbr, ew) ∈ edges ∧ TraceFrom edges nbr tr

/-- Final node of a walk starting at `u`. -/
def traceEnd : Nat → List (Nat × Edge) → Nat
  | u, [] => u
  | _, (nbr, _) :: tr => traceEnd nbr tr

/-- Number of ride edges in a walk. -/
def ridesCount : List (Nat × Edge) → Nat
  | [] => 0
  | (_, Edge.ride _ _ _) :: tr => ridesCount tr + 1
  | (_, Edge.transfer _ _ _ _) :: tr => ridesCount tr

/-- Number of transfer edges in a walk. -/
def transfersCount : List (Nat × Edge) → Nat
  | [] => 0
  | (_, Edge.ride _ _ _) :: tr => transfersCount tr
  | (_, Edge.transfer _ _ _ _) :: tr => transfersCount tr + 1

/-- Fare accumulated by the relaxation loop along a walk, starting from
segment counter `s`: each ride hop pays 0 while the incremented counter is at
most 2 and 5.0 afterwards; each transfer pays its edge fare and resets the
counter. -/
def fareDelta : Nat → List (Nat × Edge) → ℚ
  | _, [] => 0
  | s, (_, Edge.ride _ _ _) :: tr => (if s + 1 ≤ 2 then (0:ℚ) else 5) + fareDelta (s + 1) tr
  | _, (_, Edge.transfer _ f _ _) :: tr => f + fareDelta 0 tr

/-- Segment decomposition of a walk: length of the first segment (ride hops
before the first transfer) and the lengths of the following segments. -/
def segLens : List (Nat × Edge) → Nat × List Nat
  | [] => (0, [])
  | (_, Edge.ride _ _ _) :: tr => ((segLens tr).1 + 1, (segLens tr).2)
  | (_, Edge.transfer _ _ _ _) :: tr => (0, (segLens tr).1 :: (segLens tr).2)

/-- Number of charged ride hops of a segment decomposition when the first
segment starts with segment counter `s` (truncated natural subtraction plays
the role of `max 0`). -/
def chargeNat (s : Nat) (p : Nat × List Nat) : Nat :=
  (p.1 - (2 - s)) + (p.2.map (fun L => L - 2)).sum

/-- Every transfer edge of the walk carries fare 2.0 (true of every walk
through a built graph). -/
def TransfersFare2 (tr : List (Nat × Edge)) : Prop :=
  ∀ p ∈ tr, ∀ t f a b, p.2 = Edge.transfer t f a b → f = 2

/-- Invariant of a queue entry during one run from `s0`: the entry is the
tuple of some walk from the start node, and while the entry is fresh (its
station unvisited and its count equal to the recorded distance) the
`path_info` record of its station belongs to the same walk. -/
def EntryInv (lines : List Line) (stations : List Station) (s0 : Station)
    (edges : List (Nat × Nat × Edge)) (visited : List Nat)
    (dist : Nat → Option Nat) (info : Nat → Option Info) (e : Entry) : Prop :=
  ∃ tr, TraceFrom edges s0.id tr ∧ e = entryOfT (runT lines stations s0 tr) ∧
    (e.sid ∉ visited → dist e.sid = some e.cnt →
      info e.sid = some (infoOfT (runT lines stations s0 tr)))

/-- Invariant of the whole run state: every queue entry satisfies `EntryInv`,
every queue entry's station has a recorded distance no larger than the
entry's count, and every unvisited station with a recorded distance still has
a queue entry realising that distance. -/
def StateOK (lines : List Line) (stations : List Station) (s0 : Station)
    (edges : List (Nat × Nat × Edge)) (s : RunState) : Prop :=
  (∀ e ∈ s.pq, EntryInv lines stations s0 edges s.visited s.dist s.info e) ∧
  (∀ e ∈ s.pq, ∃ d, s.dist e.sid = some d ∧ d ≤ e.cnt) ∧
  (∀ sid, sid ∉ s.visited → ∀ d, s.dist sid = some d →
      ∃ e ∈ s.pq, e.sid = sid ∧ e.cnt = d)

/-- A completion candidate always comes from a walk through the graph that
starts at one of the source-named stations. -/
def CandInv (lines : List Line) (stations : List Station) (src : String)
    (edges : List (Nat × Nat × Edge)) (c : Candidate) : Prop :=
  ∃ s0 ∈ station_map stations src, ∃ tr, TraceFrom edges s0.id tr ∧
    c = candOfT (runT lines stations s0 tr)

/-- Invariant of the shared best candidate. -/
def BestOK (lines : List Line) (stations : List Station) (src : String)
    (edges : List (Nat × Nat × Edge)) (best : Option Candidate) : Prop :=
  ∀ c, best = some c → CandInv lines stations src edges c

instance : IsTotal Station (fun a b => a.station_number_on_line ≤ b.station_number_on_line) :=
  ⟨fun a b => le_total _ _⟩

instance : IsTrans Station (fun a b => a.station_number_on_line ≤ b.station_number_on_line) :=
  ⟨fun _ _ _ => le_trans⟩

/-- Consecutive integers, for describing sequence numbers `a, a+1, ..., a+n-1`. -/
def seqRange : Nat → Int → List Int
  | 0, _ => []
  | Nat.succ n, a => a :: seqRange n (a + 1)

/-- Fixture: the Red line. -/
def exRed : Line := ⟨1, "Red", "red"⟩

/-- Fixture: the Blue line. -/
def exBlue : Line := ⟨2, "Blue", "blue"⟩

/-- Fixture: station A, first on the Red line. -/
def exA : Station := ⟨1, "A", 1, none, 1, false⟩

/-- Fixture: station B, second on the Red line. -/
def exB : Station := ⟨2, "B", 1, none, 2, false⟩

/-- Fixture: station C, third on the Red line. -/
def exC : Station := ⟨3, "C", 1, none, 3, false⟩

/-- Fixture: station D, fourth on the Red line. -/
def exD : Station := ⟨4, "D", 1, none, 4, false⟩

/-- Fixture: interchange station X as it appears on the Red line. -/
def exX1 : Station := ⟨2, "X", 1, none, 2, true⟩

/-- Fixture: interchange station X as it appears on the Blue line. -/
def exX2 : Station := ⟨3, "X", 2, none, 1, true⟩

/-- Fixture: station E, second on the Blue line. -/
def exE : Station := ⟨4, "E", 2, none, 2, false⟩

/-- Fixture: a two-line network joined at interchange X. -/
def exS : List Station := [exA, exX1, exX2, exE]

/-- Selector for ride edges carrying a given line id (used to state which
part of the built adjacency belongs to one line). -/
def isRideOfLine (lid : Nat) (t : Nat × Nat × Edge) : Bool :=
  match t.2.2 with
  | Edge.ride _ _ l => l = lid
  | Edge.transfer _ _ _ _ => false

/-- A node already seen by a run: marked visited or present in the queue. -/
def Reached (s : RunState) (u : Nat) : Prop :=
  u ∈ s.visited ∨ ∃ x ∈ s.pq, x.sid = u

/-- All node ids a run from `s0` can ever enqueue: the start id and the
targets of all edges. -/
def idSetOf (s0 : Station) (edges : List (Nat × Nat × Edge)) : List Nat :=
  s0.id :: edges.map (fun t => t.2.1)

/-- Remaining expansion potential of a run: total adjacency length of the
unvisited enqueueable nodes. -/
def potOf (edges : List (Nat × Nat × Edge)) (s0 : Station) (visited : List Nat) : Nat :=
  (((idSetOf s0 edges).dedup.filter (fun u => u ∉ visited)).map
    (fun u => (adjOf edges u).length)).sum

/-- Termination measure of the `while pq` loop: queue length plus remaining
expansion potential; every iteration strictly decreases it. -/
def measureOf (edges : List (Nat × Nat × Edge)) (s0 : Station) (s : RunState) : Nat :=
  s.pq.length + potOf edges s0 s.visited

/-- Completeness invariant of one run: the start node is reached, every
visited destination-named node has already recorded a candidate, every
visited expanded node has all its neighbors reached, and every queued
entry's id is enqueueable. -/
def CompInv (stations : List Station) (edges : List (Nat × Nat × Edge)) (s0 : Station)
    (endName : String) (s : RunState) (best : Option Candidate) : Prop :=
  Reached s s0.id ∧
  (∀ u ∈ s.visited, (station_id_to_obj stations u).name = endName → best ≠ none) ∧
  (∀ u ∈ s.visited, (station_id_to_obj stations u).name ≠ endName →
    ∀ p ∈ adjOf edges u, Reached s p.1) ∧
  (∀ x ∈ s.pq, x.sid ∈ idSetOf s0 edges)

/-- Fixture: station W on the Red line, flagged interchange. -/
def exW1 : Station := ⟨5, "W", 1, none, 3, true⟩

/-- Fixture: station W on the Blue line, not flagged interchange. -/
def exW2 : Station := ⟨6, "W", 2, none, 3, false⟩

/-- Keyword names passed when `find_shortest_path` constructs the line-change
record: `schemas.LineChangeDetail(_from=..., to=..., at=...)` at lines
179-183 of `main.py`. -/
def lineChange_call_kwargs : List String := ["_from", "to", "at"]

/-- Keys under which pydantic populates the required fields of
`LineChangeDetail` (lines 46-49 of `schemas.py`): `from_line` is declared
`Field(..., alias="from")` and population by field name is not enabled, so
the accepted keys are `"from"`, `"to"` and `"at"`, each required. -/
def lineChange_accepted_keys : List String := ["from", "to", "at"]

/-- Pydantic validation of a keyword-argument constructor call: it succeeds
exactly when every required key is among the passed keywords; otherwise the
constructor raises a `ValidationError` and the statement containing the call
aborts. -/
def pydantic_call_ok (kwargs required : List String) : Bool :=
  required.all (fun k => kwargs.contains k)

/-! ## Basic lemmas about the builder's list combinators -/

/-- Both components of a consecutive pair are members of the list. -/
theorem consecPairs_mem {α : Type} :
    ∀ (l : List α) (p : α × α), p ∈ consecPairs l → p.1 ∈ l ∧ p.2 ∈ l := by
  intro l
  induction l with
  | nil => intro p hp; simp [consecPairs] at hp
  | cons a t ih =>
    cases t with
    | nil => intro p hp; simp [consecPairs] at hp
    | cons b t2 =>
      intro p hp
      simp only [consecPairs] at hp
      rcases List.mem_cons.mp hp with h | h
      · subst h; exact ⟨List.mem_cons_self _ _, List.mem_cons_of_mem _ (List.mem_cons_self _ _)⟩
      · have h2 := ih p h
        exact ⟨List.mem_cons_of_mem _ h2.1, List.mem_cons_of_mem _ h2.2⟩

/-- Membership in the per-line sorted station list means membership in the
station records with the right line id. -/
theorem mem_sortedStationsOnLine {line : Line} {stations : List Station} {q : Station}
    (h : q ∈ sortedStationsOnLine line stations) : q ∈ stations ∧ q.line_id = line.id := by
  unfold sortedStationsOnLine at h
  have h2 : q ∈ stations.filter (fun s => s.line_id = line.id) :=
    (List.perm_insertionSort _ _).mem_iff.mp h
  simpa using List.mem_filter.mp h2

/-- Both components of a `listPairs` pair are members of the list. -/
theorem listPairs_mem {α : Type} :
    ∀ (l : List α) (p : α × α), p ∈ listPairs l → p.1 ∈ l ∧ p.2 ∈ l := by
  intro l
  induction l with
  | nil => intro p hp; simp [listPairs] at hp
  | cons a t ih =>
    intro p hp
    simp only [listPairs, List.mem_append, List.mem_map] at hp
    rcases hp with ⟨b, hb, rfl⟩ | h
    · exact ⟨List.mem_cons_self _ _, List.mem_cons_of_mem _ hb⟩
    · have h2 := ih p h
      exact ⟨List.mem_cons_of_mem _ h2.1, List.mem_cons_of_mem _ h2.2⟩

/-- Shape of the elements contributed by one same-name group: each comes from
an `i < j` pair of the group lying on different lines, in one of the two
directionser, with `time=5`, `fare=2`. -/
theorem transfer_edges_for_group_shape (g : List Station) (t : Nat × Nat × Edge)
    (h : t ∈ transfer_edges_for_group g) :
    ∃ p ∈ listPairs g, p.1.line_id ≠ p.2.line_id ∧
      (t = (p.1.id, p.2.id, Edge.transfer 5 2 p.1.line_id p.2.line_id) ∨
       t = (p.2.id, p.1.id, Edge.transfer 5 2 p.2.line_id p.1.line_id)) := by
  unfold transfer_edges_for_group at h
  rw [List.mem_flatMap] at h
  obtain ⟨p, hp, hm⟩ := h
  by_cases hne : p.1.line_id = p.2.line_id
  · rw [if_neg (by simpa using hne)] at hm
    simp at hm
  · rw [if_pos (by simpa using hne)] at hm
    refine ⟨p, hp, hne, ?_⟩
    simpa using hm

/-- Shape of the elements of `transfer_edges_for_name`. -/
theorem transfer_edges_for_name_shape (stations : List Station) (n : String)
    (t : Nat × Nat × Edge) (h : t ∈ transfer_edges_for_name stations n) :
    ∃ p ∈ listPairs (station_map stations n), p.1.line_id ≠ p.2.line_id ∧
      (t = (p.1.id, p.2.id, Edge.transfer 5 2 p.1.line_id p.2.line_id) ∨
       t = (p.2.id, p.1.id, Edge.transfer 5 2 p.2.line_id p.1.line_id)) := by
  unfold transfer_edges_for_name at h
  split at h
  · exact transfer_edges_for_group_shape _ _ h
  · simp at h

/-- Shape of the elements of `ride_edges_for_line`: each comes from a
consecutive pair of the line's sorted stations, in one of the two directions,
with `time=2.5` and the positional fare field. -/
theorem ride_edges_for_line_shape (line : Line) (stations : List Station)
    (t : Nat × Nat × Edge) (h : t ∈ ride_edges_for_line line stations) :
    ∃ p ∈ consecPairs (sortedStationsOnLine line stations),
      (t = (p.1.id, p.2.id,
              Edge.ride (5/2) (if (2:Int) ≤ p.1.station_number_on_line then 5 else 0) line.id) ∨
       t = (p.2.id, p.1.id,
              Edge.ride (5/2) (if (2:Int) ≤ p.2.station_number_on_line then 5 else 0) line.id)) := by
  unfold ride_edges_for_line at h
  rw [List.mem_flatMap] at h
  obtain ⟨p, hp, hm⟩ := h
  exact ⟨p, hp, by simpa using hm⟩

/-- Every transfer-shaped edge of a built graph carries time 5.0 and fare 2.0. -/
theorem build_graph_transfer_weights (lines : List Line) (stations : List Station)
    (a b : Nat) (ew : Edge) (h : (a, b, ew) ∈ build_graph lines stations) :
    ∀ t f x y, ew = Edge.transfer t f x y → t = 5 ∧ f = 2 := by
  intro t f x y hshape
  subst hshape
  unfold build_graph at h
  rcases List.mem_append.mp h with h | h
  · rw [List.mem_flatMap] at h
    obtain ⟨l, _, hm⟩ := h
    obtain ⟨p, _, hc | hc⟩ := ride_edges_for_line_shape _ _ _ hm <;> simp at hc
  · rw [List.mem_flatMap] at h
    obtain ⟨n, _, hm⟩ := h
    obtain ⟨p, _, _, hc | hc⟩ := transfer_edges_for_name_shape _ _ _ hm <;>
      · rw [Prod.mk.injEq, Prod.mk.injEq] at hc
        obtain ⟨-, -, hE⟩ := hc
        injection hE with h1 h2 _ _
        exact ⟨h1, h2⟩

/-! ## Claim C2: the three-station example -/

/-- Claim C2 states that on the single line A(1)-B(2)-C(3) the query A → C
returns total fare 10.0.  The code returns 15.0: the segment counter starts
at 1, so the second ride hop already pays 5.0, and the base fare 10.0 is
added on top.  All other fields are as the claim states. -/
theorem claim_C2_counterexample :
    find_metro_route [exRed] [exA, exB, exC] "A" "C" =
      RouteOutcome.ok ⟨["A", "B", "C"], 2, 15, [], "5.0 minutes", []⟩ ∧
    (15 : ℚ) ≠ 10 := by
  constructor
  · exact of_decide_eq_true (by with_unfolding_all rfl)
  · norm_num

/-- Claim C2 amended: the route query A → C on the three-station line returns
route ["A","B","C"], totalStations 2, totalFare 15.0 (not 10.0),
estimatedTime "5.0 minutes", empty interchanges and empty lineChanges. -/
theorem claim_C2_amended :
    find_metro_route [exRed] [exA, exB, exC] "A" "C" =
      RouteOutcome.ok ⟨["A", "B", "C"], 2, 15, [], "5.0 minutes", []⟩ :=
  of_decide_eq_true (by with_unfolding_all rfl)

/-! ## Claims C7 and C10: the same-name short-circuit of the endpoint -/

/-- Claim C7: for a station name present in the records, querying it against
itself returns the zero-length route (the search is never consulted: the
equality branch precedes it). -/
theorem claim_C7 (lines : List Line) (stations : List Station) (X : String)
    (hX : stationExists stations X = true) :
    find_metro_route lines stations X X = RouteOutcome.ok (zeroRoute X) := by
  unfold find_metro_route
  rw [if_pos rfl]

/-- Witness for claim C7 at the concrete network. -/
theorem claim_C7_witness :
    stationExists [exA] "A" = true ∧
    find_metro_route [exRed] [exA] "A" "A" = RouteOutcome.ok (zeroRoute "A") :=
  ⟨by decide, claim_C7 [exRed] [exA] "A" (by decide)⟩

/-- Claim C10: the equality check precedes name validation, so even a name
absent from the records yields the zero-length route, never the
unknown-station error. -/
theorem claim_C10 (lines : List Line) (stations : List Station) (X : String)
    (hX : stationExists stations X = false) :
    find_metro_route lines stations X X = RouteOutcome.ok (zeroRoute X) ∧
    ∀ m, find_metro_route lines stations X X ≠ RouteOutcome.unknownStation m := by
  constructor
  · unfold find_metro_route
    rw [if_pos rfl]
  · intro m h
    unfold find_metro_route at h
    rw [if_pos rfl] at h
    exact RouteOutcome.noConfusion h

/-- Witness for claim C10 at a name that no record carries. -/
theorem claim_C10_witness :
    stationExists [exA] "Zed" = false ∧
    (find_metro_route [exRed] [exA] "Zed" "Zed" = RouteOutcome.ok (zeroRoute "Zed") ∧
     ∀ m, find_metro_route [exRed] [exA] "Zed" "Zed" ≠ RouteOutcome.unknownStation m) :=
  ⟨by decide, claim_C10 [exRed] [exA] "Zed" (by decide)⟩

/-! ## Claim C3: the builder never fails -/

/-- Claim C3 states the builder rejects malformed input with a `BuildError`.
The source builder contains no validation and no failure path: here is a
concrete malformed input (station referencing the unknown line id 99) on
which the build succeeds, producing a graph with no edges at all. -/
theorem claim_C3_counterexample :
    MalformedInput [exRed] [⟨1, "A", 99, none, 1, false⟩] ∧
    build_graph_result [exRed] [⟨1, "A", 99, none, 1, false⟩] =
      Except.ok (build_graph [exRed] [⟨1, "A", 99, none, 1, false⟩]) ∧
    build_graph [exRed] [⟨1, "A", 99, none, 1, false⟩] = [] := by
  refine ⟨Or.inl ?_, rfl, by decide⟩
  exact ⟨⟨1, "A", 99, none, 1, false⟩, by decide, by decide⟩

/-- Claim C3 amended: the builder is total — it succeeds on every input,
malformed ones included; a station whose line id matches no line record simply
contributes no ride edges (every ride edge's source id belongs to a station
lying on a known line). -/
theorem claim_C3_amended (lines : List Line) (stations : List Station) :
    (∃ g, build_graph_result lines stations = Except.ok g) ∧
    (∀ a b e, (a, b, e) ∈ lines.flatMap (fun l => ride_edges_for_line l stations) →
      ∃ l ∈ lines, ∃ s ∈ stations, s.id = a ∧ s.line_id = l.id) := by
  constructor
  · exact ⟨build_graph lines stations, rfl⟩
  · intro a b e h
    rw [List.mem_flatMap] at h
    obtain ⟨l, hl, hm⟩ := h
    obtain ⟨p, hp, hc | hc⟩ := ride_edges_for_line_shape _ _ _ hm
    · have hmem := (consecPairs_mem _ _ hp).1
      have h2 := mem_sortedStationsOnLine hmem
      rw [Prod.mk.injEq] at hc
      exact ⟨l, hl, p.1, h2.1, hc.1.symm, h2.2⟩
    · have hmem := (consecPairs_mem _ _ hp).2
      have h2 := mem_sortedStationsOnLine hmem
      rw [Prod.mk.injEq] at hc
      exact ⟨l, hl, p.2, h2.1, hc.1.symm, h2.2⟩

/-- Witness for the amended claim C3, instantiating the ride-edge property at
a concrete edge of a two-station line. -/
theorem claim_C3_amended_witness :
    ∃ l ∈ [exRed], ∃ s ∈ [exA, exB], s.id = 1 ∧ s.line_id = l.id :=
  (claim_C3_amended [exRed] [exA, exB]).2 1 2
    (Edge.ride (5/2) 0 1) (of_decide_eq_true (by with_unfolding_all rfl))

/-! ## Claim C9: strict-less-than relaxation and candidate replacement -/

/-- Claim C9: a neighbor's recorded best is replaced (and a tuple pushed) only
on a strictly smaller station count — ties and larger counts leave distance,
`path_info` and queue untouched — and the shared best candidate across runs is
likewise replaced only on a strictly smaller station count. -/
theorem claim_C9 :
    (∀ (dist : Nat → Option Nat) (info : Nat → Option Info) (pq : List Entry)
        (nbr : Nat) (ne : Entry) (ni : Info) (d : Nat),
        dist nbr = some d → d ≤ ne.cnt →
        considerNeighbor dist info pq nbr ne ni = (dist, info, pq)) ∧
    (∀ (dist : Nat → Option Nat) (info : Nat → Option Info) (pq : List Entry)
        (nbr : Nat) (ne : Entry) (ni : Info) (d : Nat),
        dist nbr = some d → ne.cnt < d →
        considerNeighbor dist info pq nbr ne ni =
          (setMap dist nbr ne.cnt, setMap info nbr ni, pq ++ [ne])) ∧
    (∀ b c : Candidate, ¬ c.cnt < b.cnt → updateBest (some b) c = some b) ∧
    (∀ b c : Candidate, c.cnt < b.cnt → updateBest (some b) c = some c) := by
  refine ⟨?_, ?_, ?_, ?_⟩
  · intro dist info pq nbr ne ni d hd hle
    unfold considerNeighbor
    rw [hd]
    have : ltDist (some d) ne.cnt = false := by
      unfold ltDist
      simpa using Nat.not_lt.mpr hle
    rw [this]
    simp
  · intro dist info pq nbr ne ni d hd hlt
    unfold considerNeighbor
    rw [hd]
    have : ltDist (some d) ne.cnt = true := by
      unfold ltDist
      simpa using hlt
    rw [this]
    simp
  · intro b c h
    have h2 : updateBest (some b) c = if c.cnt < b.cnt then some c else some b := rfl
    rw [h2, if_neg h]
  · intro b c h
    have h2 : updateBest (some b) c = if c.cnt < b.cnt then some c else some b := rfl
    rw [h2, if_pos h]

/-- Witness for claim C9 at concrete dictionaries and candidates. -/
theorem claim_C9_witness :
    considerNeighbor (fun _ => some 3) (fun _ => none) [] 0 ⟨3, 0, [], 0, 0, 0, 0⟩ defaultInfo =
      ((fun _ => some 3), (fun _ => none), []) ∧
    updateBest (some ⟨2, [], 0, 0, [], []⟩) ⟨2, [9], 1, 1, [], []⟩ =
      some ⟨2, [], 0, 0, [], []⟩ :=
  ⟨claim_C9.1 _ _ _ 0 _ _ 3 rfl (by decide),
   claim_C9.2.2.1 _ _ (by decide)⟩

/-! ## Claim C4: what a transfer relaxation does -/

/-- Claim C4 is a code bug: the transfer relaxation it describes can never
complete.  The source constructs the line-change record as
`schemas.LineChangeDetail(_from=..., to=..., at=...)`, but the schema's
field is `from_line` with alias `"from"`: the keyword `_from` matches
neither, the required key `"from"` is missing from the call, and the
constructor raises a `ValidationError` before the record is appended (the
`.line.name` accesses in the same statement also lazy-load relationships on
session-detached instances).  The claimed fare/time/line updates,
interchange append and segment-counter reset are therefore discarded with
the crashed request whenever a transfer edge is relaxed. -/
theorem claim_C4 :
    pydantic_call_ok lineChange_call_kwargs lineChange_accepted_keys = false ∧
    "from" ∈ lineChange_accepted_keys ∧ "from" ∉ lineChange_call_kwargs := by
  decide

/-! ## Claim C5: when transfer edges are created -/

/-- Elements of a list survive first-occurrence deduplication (or were
already among the seen keys). -/
theorem dedupFirstAux_mem (a : String) :
    ∀ (l seen : List String), a ∈ l → a ∈ seen ∨ a ∈ dedupFirstAux seen l := by
  intro l
  induction l with
  | nil => intro seen h; simp at h
  | cons b t ih =>
    intro seen h
    rcases List.mem_cons.mp h with rfl | h2
    · by_cases hb : a ∈ seen
      · exact Or.inl hb
      · rw [dedupFirstAux, if_neg hb]
        exact Or.inr (List.mem_cons_self _ _)
    · by_cases hb : b ∈ seen
      · rw [dedupFirstAux, if_pos hb]
        exact ih seen h2
      · rw [dedupFirstAux, if_neg hb]
        rcases ih (b :: seen) h2 with h3 | h3
        · rcases List.mem_cons.mp h3 with rfl | h4
          · exact Or.inr (List.mem_cons_self _ _)
          · exact Or.inl h4
        · exact Or.inr (List.mem_cons_of_mem _ h3)

/-- A name carried by some station is a key of the station map. -/
theorem mem_mapKeys {stations : List Station} {n : String}
    (h : ∃ s ∈ stations, s.name = n) : n ∈ mapKeys stations := by
  obtain ⟨s, hs, rfl⟩ := h
  have h2 : s.name ∈ stations.map (fun s => s.name) := List.mem_map_of_mem _ hs
  rcases dedupFirstAux_mem _ _ [] h2 with h3 | h3
  · simp at h3
  · exact h3

/-- Both directed transfer edges of a cross-line pair of a group are in the
group's transfer edge list. -/
theorem transfer_pair_mem (g : List Station) (p : Station × Station)
    (hp : p ∈ listPairs g) (hne : p.1.line_id ≠ p.2.line_id) :
    (p.1.id, p.2.id, Edge.transfer 5 2 p.1.line_id p.2.line_id) ∈
      transfer_edges_for_group g ∧
    (p.2.id, p.1.id, Edge.transfer 5 2 p.2.line_id p.1.line_id) ∈
      transfer_edges_for_group g := by
  unfold transfer_edges_for_group
  constructor <;>
    · rw [List.mem_flatMap]
      refine ⟨p, hp, ?_⟩
      rw [if_pos hne]
      simp

/-- Claim C5: the builder adds the bidirectional transfer pair (stationDelta
0, time 5.0, fare 2.0 per direction) between every cross-line `i < j` pair of
a same-name group exactly when the group has more than one member and every
member is flagged interchange; otherwise the name contributes no transfer
edges at all; and every transfer edge of a name comes from such a cross-line
pair. -/
theorem claim_C5 (lines : List Line) (stations : List Station) (n : String) :
    ((1 < (station_map stations n).length ∧
        (∀ s ∈ station_map stations n, s.is_interchange = true)) →
      ∀ p ∈ listPairs (station_map stations n), p.1.line_id ≠ p.2.line_id →
        ((p.1.id, p.2.id, Edge.transfer 5 2 p.1.line_id p.2.line_id) ∈
            transfer_edges_for_name stations n ∧
         (p.2.id, p.1.id, Edge.transfer 5 2 p.2.line_id p.1.line_id) ∈
            transfer_edges_for_name stations n) ∧
        ((p.1.id, p.2.id, Edge.transfer 5 2 p.1.line_id p.2.line_id) ∈
            build_graph lines stations ∧
         (p.2.id, p.1.id, Edge.transfer 5 2 p.2.line_id p.1.line_id) ∈
            build_graph lines stations)) ∧
    (¬ (1 < (station_map stations n).length ∧
        (∀ s ∈ station_map stations n, s.is_interchange = true)) →
      transfer_edges_for_name stations n = []) ∧
    (∀ t ∈ transfer_edges_for_name stations n,
      ∃ p ∈ listPairs (station_map stations n), p.1.line_id ≠ p.2.line_id ∧
        (t = (p.1.id, p.2.id, Edge.transfer 5 2 p.1.line_id p.2.line_id) ∨
         t = (p.2.id, p.1.id, Edge.transfer 5 2 p.2.line_id p.1.line_id))) ∧
    (∀ t f x y, Edge.stationsDelta (Edge.transfer t f x y) = 0) := by
  refine ⟨?_, ?_, ?_, fun _ _ _ _ => rfl⟩
  · intro hcond p hp hne
    have hgrp := transfer_pair_mem (station_map stations n) p hp hne
    have hname : (p.1.id, p.2.id, Edge.transfer 5 2 p.1.line_id p.2.line_id) ∈
        transfer_edges_for_name stations n ∧
        (p.2.id, p.1.id, Edge.transfer 5 2 p.2.line_id p.1.line_id) ∈
        transfer_edges_for_name stations n := by
      unfold transfer_edges_for_name
      rw [if_pos hcond]
      exact hgrp
    refine ⟨hname, ?_, ?_⟩ <;>
    · unfold build_graph
      rw [List.mem_append]
      right
      rw [List.mem_flatMap]
      refine ⟨n, ?_, by tauto⟩
      apply mem_mapKeys
      have hp1 := (listPairs_mem _ _ hp).1
      have h2 := List.mem_filter.mp hp1
      exact ⟨p.1, h2.1, by simpa using h2.2⟩
  · intro hcond
    unfold transfer_edges_for_name
    rw [if_neg hcond]
  · exact transfer_edges_for_name_shape stations n

/-- Witness for claim C5: the positive branch at the X pair of the fixture
network, and the negative branch at the W pair where only one member is
flagged interchange. -/
theorem claim_C5_witness :
    ((2, 3, Edge.transfer 5 2 1 2) ∈ transfer_edges_for_name exS "X" ∧
     (3, 2, Edge.transfer 5 2 2 1) ∈ transfer_edges_for_name exS "X") ∧
    transfer_edges_for_name [exW1, exW2] "W" = [] :=
  ⟨(((claim_C5 [exRed, exBlue] exS "X").1 (by decide) (exX1, exX2) (by decide)
      (by decide)).1),
   ((claim_C5 [exRed, exBlue] [exW1, exW2] "W").2.1 (by decide))⟩

/-! ## Claim C6: ride edges of a correctly sequenced line -/

/-- Bounds of the members of a consecutive integer range. -/
theorem seqRange_mem : ∀ (n : Nat) (a x : Int), x ∈ seqRange n a → a ≤ x ∧ x < a + n := by
  intro n
  induction n with
  | zero => intro a x h; simp [seqRange] at h
  | succ m ih =>
    intro a x h
    rw [seqRange] at h
    rcases List.mem_cons.mp h with rfl | h2
    · omega
    · have h3 := ih (a + 1) x h2
      omega

/-- Length of a consecutive integer range. -/
theorem seqRange_length : ∀ (n : Nat) (a : Int), (seqRange n a).length = n := by
  intro n
  induction n with
  | zero => intro a; rfl
  | succ m ih => intro a; rw [seqRange, List.length_cons, ih]

/-- A consecutive integer range is sorted. -/
theorem seqRange_pairwise : ∀ (n : Nat) (a : Int),
    (seqRange n a).Pairwise (fun x y => x ≤ y) := by
  intro n
  induction n with
  | zero => intro a; simp [seqRange]
  | succ m ih =>
    intro a
    rw [seqRange]
    refine List.Pairwise.cons ?_ (ih (a + 1))
    intro y hy
    have h2 := (seqRange_mem _ _ _ hy).1
    omega

/-- A consecutive integer range has no duplicates. -/
theorem seqRange_nodup : ∀ (n : Nat) (a : Int), (seqRange n a).Nodup := by
  intro n
  induction n with
  | zero => intro a; simp [seqRange]
  | succ m ih =>
    intro a
    rw [seqRange]
    refine List.nodup_cons.mpr ⟨?_, ih (a + 1)⟩
    intro ha
    have h2 := (seqRange_mem _ _ _ ha).1
    omega

/-- Number of consecutive pairs of a list. -/
theorem consecPairs_length {α : Type} : ∀ l : List α, (consecPairs l).length = l.length - 1 := by
  intro l
  induction l with
  | nil => simp [consecPairs]
  | cons a t ih =>
    cases t with
    | nil => simp [consecPairs]
    | cons b t2 =>
      simp only [consecPairs, List.length_cons] at ih ⊢
      omega

/-- In a list whose sequence numbers form a consecutive range, every
consecutive pair of stations has adjacent sequence numbers. -/
theorem consec_seq : ∀ (l : List Station) (n : Nat) (a : Int),
    l.map (fun s => s.station_number_on_line) = seqRange n a →
    ∀ p ∈ consecPairs l,
      p.2.station_number_on_line = p.1.station_number_on_line + 1 := by
  intro l
  induction l with
  | nil => intro n a h p hp; simp [consecPairs] at hp
  | cons s t ih =>
    intro n a h p hp
    cases n with
    | zero => simp [seqRange] at h
    | succ m =>
      rw [seqRange, List.map_cons] at h
      injection h with h1 h2
      cases t with
      | nil => simp [consecPairs] at hp
      | cons s2 t2 =>
        simp only [consecPairs] at hp
        rcases List.mem_cons.mp hp with rfl | hp2
        · cases m with
          | zero => simp [seqRange] at h2
          | succ k =>
            rw [seqRange, List.map_cons] at h2
            injection h2 with h3 _
            show s2.station_number_on_line = s.station_number_on_line + 1
            rw [h3, h1]
        · exact ih m (a + 1) h2 p hp2

/-- In a list whose sequence numbers form a consecutive range, every couple of
stations with adjacent sequence numbers is a consecutive pair of the list. -/
theorem adj_pair_mem : ∀ (l : List Station) (n : Nat) (a : Int),
    l.map (fun s => s.station_number_on_line) = seqRange n a →
    ∀ s1 s2, s1 ∈ l → s2 ∈ l →
      s2.station_number_on_line = s1.station_number_on_line + 1 →
      (s1, s2) ∈ consecPairs l := by
  intro l
  induction l with
  | nil => intro n a h s1 s2 h1 h2 h3; simp at h1
  | cons s t ih =>
    intro n a h s1 s2 h1 h2 h3
    cases n with
    | zero => simp [seqRange] at h
    | succ m =>
      rw [seqRange, List.map_cons] at h
      injection h with hseq hmap
      have hbound : ∀ x ∈ t, a + 1 ≤ x.station_number_on_line := by
        intro x hx
        have hx2 : x.station_number_on_line ∈ seqRange m (a + 1) := by
          rw [← hmap]
          exact List.mem_map_of_mem _ hx
        exact (seqRange_mem _ _ _ hx2).1
      have hnd : (t.map (fun s => s.station_number_on_line)).Nodup := by
        rw [hmap]
        exact seqRange_nodup _ _
      rcases List.mem_cons.mp h1 with rfl | h1t
      · have hs2t : s2 ∈ t := by
          rcases List.mem_cons.mp h2 with rfl | hmem
          · exfalso; omega
          · exact hmem
        cases t with
        | nil => simp at hs2t
        | cons c t2 =>
          have hhead : c.station_number_on_line = a + 1 := by
            cases m with
            | zero => simp [seqRange] at hmap
            | succ k =>
              rw [seqRange, List.map_cons, List.cons.injEq] at hmap
              exact hmap.1
          have hceq : s2 = c := by
            refine List.inj_on_of_nodup_map hnd hs2t (List.mem_cons_self _ _) ?_
            rw [hhead, h3, hseq]
          subst hceq
          simp [consecPairs]
      · have hs2t : s2 ∈ t := by
          rcases List.mem_cons.mp h2 with rfl | hmem
          · exfalso
            have h4 := hbound s1 h1t
            omega
          · exact hmem
        have hrec := ih m (a + 1) hmap s1 s2 h1t hs2t h3
        cases t with
        | nil => simp at h1t
        | cons c t2 =>
          simp only [consecPairs]
          exact List.mem_cons_of_mem _ hrec

/-- When the sequence numbers of a line's stations are a permutation of
`1..N`, the sorted station list's sequence numbers are exactly `1, ..., N`. -/
theorem sorted_seq_eq (line : Line) (stations : List Station) (N : Nat)
    (hperm : ((stations.filter (fun s => s.line_id = line.id)).map
        (fun s => s.station_number_on_line)).Perm (seqRange N 1)) :
    (sortedStationsOnLine line stations).map (fun s => s.station_number_on_line) =
      seqRange N 1 := by
  haveI : IsAntisymm Int (fun x y => x ≤ y) := ⟨fun _ _ h1 h2 => le_antisymm h1 h2⟩
  apply List.eq_of_perm_of_sorted (r := fun x y : Int => x ≤ y)
  · exact ((List.perm_insertionSort _ _).map _).trans hperm
  · have hs := List.sorted_insertionSort
      (fun a b => a.station_number_on_line ≤ b.station_number_on_line)
      (stations.filter (fun s => s.line_id = line.id))
    exact List.Pairwise.map _ (fun a b hab => hab) hs
  · exact seqRange_pairwise N 1

/-- Length of a flat map whose pieces all have two elements. -/
theorem flatMap_two_length {α β : Type} (ps : List α) (f : α → List β)
    (h : ∀ p, (f p).length = 2) : (ps.flatMap f).length = 2 * ps.length := by
  induction ps with
  | nil => simp
  | cons p t ih =>
    rw [List.flatMap_cons, List.length_append, h p, ih, List.length_cons]
    omega

/-- Ride edges of a line match, and ride edges of other lines avoid, the
line-id selector. -/
theorem ride_isRideOfLine (line : Line) (stations : List Station) (lid : Nat) :
    (line.id = lid → ∀ t ∈ ride_edges_for_line line stations, isRideOfLine lid t = true) ∧
    (line.id ≠ lid → ∀ t ∈ ride_edges_for_line line stations, isRideOfLine lid t = false) := by
  constructor <;> intro h t ht <;>
    obtain ⟨p, hp, hc | hc⟩ := ride_edges_for_line_shape _ _ _ ht <;>
      subst hc <;> simp [isRideOfLine, h]

/-- Transfer edges never match the ride selector. -/
theorem transfer_isRideOfLine (stations : List Station) (n : String) (lid : Nat) :
    ∀ t ∈ transfer_edges_for_name stations n, isRideOfLine lid t = false := by
  intro t ht
  obtain ⟨p, _, _, hc | hc⟩ := transfer_edges_for_name_shape _ _ _ ht <;> subst hc <;> rfl

/-- When a line's id occurs exactly once among the line records, the ride
edges of the built graph carrying that id are exactly the line's ride
edges. -/
theorem build_graph_filter_ride (lines : List Line) (stations : List Station) (line : Line)
    (hfl : lines.filter (fun l2 => l2.id = line.id) = [line]) :
    (build_graph lines stations).filter (isRideOfLine line.id) =
      ride_edges_for_line line stations := by
  unfold build_graph
  rw [List.filter_append]
  have htr : (((mapKeys stations).flatMap (fun n => transfer_edges_for_name stations n)).filter
      (isRideOfLine line.id)) = [] := by
    rw [List.filter_eq_nil]
    intro t ht
    rw [List.mem_flatMap] at ht
    obtain ⟨n, _, htn⟩ := ht
    simp [transfer_isRideOfLine stations n line.id t htn]
  rw [htr, List.append_nil]
  induction lines with
  | nil => simp at hfl
  | cons l2 ls ih =>
    rw [List.filter_cons] at hfl
    rw [List.flatMap_cons, List.filter_append]
    by_cases hid : l2.id = line.id
    · rw [if_pos (by simpa using hid)] at hfl
      have hl2 : l2 = line := by
        have h2 := List.head_eq_of_cons_eq hfl
        exact h2
      have hnil : ls.filter (fun l3 => l3.id = line.id) = [] :=
        List.tail_eq_of_cons_eq hfl
      subst hl2
      have h1 : (ride_edges_for_line l2 stations).filter (isRideOfLine l2.id) =
          ride_edges_for_line l2 stations :=
        List.filter_eq_self.mpr ((ride_isRideOfLine l2 stations l2.id).1 rfl)
      have h2 : ((ls.flatMap (fun l => ride_edges_for_line l stations)).filter
          (isRideOfLine l2.id)) = [] := by
        rw [List.filter_eq_nil]
        intro t ht
        rw [List.mem_flatMap] at ht
        obtain ⟨l3, hl3, htn⟩ := ht
        have hne : l3.id ≠ l2.id := by
          intro hEq
          have h4 := List.filter_eq_nil.mp hnil l3 hl3
          simp [hEq] at h4
        simp [(ride_isRideOfLine l3 stations l2.id).2 hne t htn]
      rw [h1, h2, List.append_nil]
    · rw [if_neg (by simpa using hid)] at hfl
      have h1 : (ride_edges_for_line l2 stations).filter (isRideOfLine line.id) = [] := by
        rw [List.filter_eq_nil]
        intro t ht
        simp [(ride_isRideOfLine l2 stations line.id).2 hid t ht]
      rw [h1, List.nil_append]
      exact ih hfl

/-- Claim C6: for a line whose stations are sequenced `1..N`, the line
contributes exactly `N-1` bidirectional ride-edge pairs (`2*(N-1)` directed
edges), each with `stations=1` and `time=2.5`, each joining a couple of the
line's stations with adjacent sequence numbers; conversely every
sequence-adjacent couple gets both directed edges; and when the line's id is
unique among the line records these are exactly the ride edges of the built
graph carrying that line id. -/
theorem claim_C6 (lines : List Line) (stations : List Station) (line : Line) (N : Nat)
    (hperm : ((stations.filter (fun s => s.line_id = line.id)).map
        (fun s => s.station_number_on_line)).Perm (seqRange N 1)) :
    (ride_edges_for_line line stations).length = 2 * (N - 1) ∧
    (∀ t ∈ ride_edges_for_line line stations,
      Edge.stationsDelta t.2.2 = 1 ∧
      (∃ fr, t.2.2 = Edge.ride (5/2) fr line.id) ∧
      (∃ s1 s2, s1 ∈ stations.filter (fun s => s.line_id = line.id) ∧
        s2 ∈ stations.filter (fun s => s.line_id = line.id) ∧
        s2.station_number_on_line = s1.station_number_on_line + 1 ∧
        ((t.1 = s1.id ∧ t.2.1 = s2.id) ∨ (t.1 = s2.id ∧ t.2.1 = s1.id)))) ∧
    (∀ s1 s2, s1 ∈ stations.filter (fun s => s.line_id = line.id) →
      s2 ∈ stations.filter (fun s => s.line_id = line.id) →
      s2.station_number_on_line = s1.station_number_on_line + 1 →
      (s1.id, s2.id, Edge.ride (5/2)
          (if (2:Int) ≤ s1.station_number_on_line then 5 else 0) line.id) ∈
        ride_edges_for_line line stations ∧
      (s2.id, s1.id, Edge.ride (5/2)
          (if (2:Int) ≤ s2.station_number_on_line then 5 else 0) line.id) ∈
        ride_edges_for_line line stations) ∧
    (lines.filter (fun l2 => l2.id = line.id) = [line] →
      (build_graph lines stations).filter (isRideOfLine line.id) =
        ride_edges_for_line line stations) := by
  have hmapEq := sorted_seq_eq line stations N hperm
  have hSlen : (sortedStationsOnLine line stations).length = N := by
    have h2 := congrArg List.length hmapEq
    rw [List.length_map, seqRange_length] at h2
    exact h2
  have hSmem : ∀ q ∈ sortedStationsOnLine line stations,
      q ∈ stations.filter (fun s => s.line_id = line.id) := by
    intro q hq
    exact (List.perm_insertionSort _ _).mem_iff.mp hq
  have hFmem : ∀ q ∈ stations.filter (fun s => s.line_id = line.id),
      q ∈ sortedStationsOnLine line stations := by
    intro q hq
    exact (List.perm_insertionSort _ _).mem_iff.mpr hq
  refine ⟨?_, ?_, ?_, build_graph_filter_ride lines stations line⟩
  · unfold ride_edges_for_line
    have hlen := flatMap_two_length (consecPairs (sortedStationsOnLine line stations))
      (fun p => [(p.1.id, p.2.id,
          Edge.ride (5/2) (if (2:Int) ≤ p.1.station_number_on_line then 5 else 0) line.id),
        (p.2.id, p.1.id,
          Edge.ride (5/2) (if (2:Int) ≤ p.2.station_number_on_line then 5 else 0) line.id)])
      (fun p => rfl)
    rw [hlen, consecPairs_length, hSlen]
  · intro t ht
    obtain ⟨p, hp, hc | hc⟩ := ride_edges_for_line_shape _ _ _ ht
    · subst hc
      have hadj := consec_seq _ _ _ hmapEq p hp
      have hm := consecPairs_mem _ _ hp
      exact ⟨rfl, ⟨_, rfl⟩, p.1, p.2, hSmem _ hm.1, hSmem _ hm.2, hadj, Or.inl ⟨rfl, rfl⟩⟩
    · subst hc
      have hadj := consec_seq _ _ _ hmapEq p hp
      have hm := consecPairs_mem _ _ hp
      exact ⟨rfl, ⟨_, rfl⟩, p.1, p.2, hSmem _ hm.1, hSmem _ hm.2, hadj, Or.inr ⟨rfl, rfl⟩⟩
  · intro s1 s2 h1 h2 h3
    have hpair := adj_pair_mem _ _ _ hmapEq s1 s2 (hFmem _ h1) (hFmem _ h2) h3
    constructor <;>
      · unfold ride_edges_for_line
        rw [List.mem_flatMap]
        exact ⟨(s1, s2), hpair, by simp⟩

/-- Witness for claim C6 at the three-station Red line. -/
theorem claim_C6_witness :
    (ride_edges_for_line exRed [exA, exB, exC]).length = 2 * (3 - 1) ∧
    ((1, 2, Edge.ride (5/2)
        (if (2:Int) ≤ exA.station_number_on_line then 5 else 0) exRed.id) ∈
      ride_edges_for_line exRed [exA, exB, exC] ∧
     (2, 1, Edge.ride (5/2)
        (if (2:Int) ≤ exB.station_number_on_line then 5 else 0) exRed.id) ∈
      ride_edges_for_line exRed [exA, exB, exC]) :=
  ⟨(claim_C6 [exRed] [exA, exB, exC] exRed 3 (by decide)).1,
   (claim_C6 [exRed] [exA, exB, exC] exRed 3 (by decide)).2.2.1 exA exB
     (by decide) (by decide) (by decide)⟩

/-! ## Claim C1: machinery — queue order and structural lemmas -/

/-- When the heap order rejects `a <= b`, the station count of `b` is no
larger than that of `a` (the count is the first compared component). -/
theorem entryLe_false_cnt_le {a b : Entry} (h : entryLe a b = false) : b.cnt <= a.cnt := by
  unfold entryLe at h
  by_cases h1 : a.cnt = b.cnt
  · omega
  · rw [if_pos (by simp [h1])] at h
    have h2 := of_decide_eq_false h
    omega

/-- The first component of the heap order is the station count. -/
theorem entryLe_cnt_le {a b : Entry} (h : entryLe a b = true) : a.cnt ≤ b.cnt := by
  unfold entryLe at h
  by_cases h1 : a.cnt = b.cnt
  · omega
  · rw [if_pos (by simp [h1])] at h
    exact Nat.le_of_lt (of_decide_eq_true h)

/-- An empty pop means an empty queue. -/
theorem popMin_none : ∀ pq : List Entry, popMin pq = none → pq = [] := by
  intro pq h
  cases pq with
  | nil => rfl
  | cons a t =>
    rw [popMin] at h
    cases h2 : popMin t with
    | none => rw [h2] at h; exact Option.noConfusion h
    | some pr =>
      obtain ⟨m, r⟩ := pr
      rw [h2] at h
      dsimp only at h
      by_cases h3 : entryLe a m = true
      · rw [if_pos h3] at h; exact Option.noConfusion h
      · rw [if_neg h3] at h; exact Option.noConfusion h

/-- Specification of `popMin`: the popped entry is a member, the remainder is
the queue with that one occurrence removed, and the popped entry has minimal
station count. -/
theorem popMin_spec : ∀ (pq : List Entry) (e : Entry) (rest : List Entry),
    popMin pq = some (e, rest) →
    e ∈ pq ∧ (∀ x ∈ pq, x = e ∨ x ∈ rest) ∧ (∀ x ∈ rest, x ∈ pq) ∧
    (∀ x ∈ pq, e.cnt ≤ x.cnt) := by
  intro pq
  induction pq with
  | nil => intro e rest h; rw [popMin] at h; exact Option.noConfusion h
  | cons a t ih =>
    intro e rest h
    rw [popMin] at h
    cases h2 : popMin t with
    | none =>
      rw [h2] at h
      have ht : t = [] := popMin_none _ h2
      subst ht
      rw [Option.some.injEq, Prod.mk.injEq] at h
      obtain ⟨rfl, rfl⟩ := h
      refine ⟨List.mem_cons_self _ _, ?_, ?_, ?_⟩
      · intro x hx
        rcases List.mem_cons.mp hx with rfl | hx2
        · exact Or.inl rfl
        · simp at hx2
      · intro x hx; simp at hx
      · intro x hx
        rcases List.mem_cons.mp hx with rfl | hx2
        · exact le_refl _
        · simp at hx2
    | some pr =>
      obtain ⟨m, r⟩ := pr
      rw [h2] at h
      dsimp only at h
      obtain ⟨hm_mem, hm_split, hm_rest, hm_min⟩ := ih m r h2
      by_cases h3 : entryLe a m = true
      · rw [if_pos h3] at h
        rw [Option.some.injEq, Prod.mk.injEq] at h
        obtain ⟨rfl, rfl⟩ := h
        refine ⟨List.mem_cons_self _ _, ?_, ?_, ?_⟩
        · intro x hx
          rcases List.mem_cons.mp hx with rfl | hx2
          · exact Or.inl rfl
          · exact Or.inr hx2
        · intro x hx; exact List.mem_cons_of_mem _ hx
        · intro x hx
          rcases List.mem_cons.mp hx with rfl | hx2
          · exact le_refl _
          · exact le_trans (entryLe_cnt_le h3) (hm_min x hx2)
      · rw [if_neg h3] at h
        rw [Option.some.injEq, Prod.mk.injEq] at h
        obtain ⟨rfl, rfl⟩ := h
        have hfa : entryLe a m = false := by
          cases h4 : entryLe a m
          · rfl
          · exact absurd h4 h3
        refine ⟨List.mem_cons_of_mem _ hm_mem, ?_, ?_, ?_⟩
        · intro x hx
          rcases List.mem_cons.mp hx with rfl | hx2
          · exact Or.inr (List.mem_cons_self _ _)
          · rcases hm_split x hx2 with h5 | h5
            · exact Or.inl h5
            · exact Or.inr (List.mem_cons_of_mem _ h5)
        · intro x hx
          rcases List.mem_cons.mp hx with rfl | hx2
          · exact List.mem_cons_self _ _
          · exact List.mem_cons_of_mem _ (hm_rest x hx2)
        · intro x hx
          rcases List.mem_cons.mp hx with rfl | hx2
          · exact entryLe_false_cnt_le hfa
          · exact hm_min x hx2

/-- Reading an updated dictionary at the written key. -/
theorem setMap_self {α : Type} (m : Nat → Option α) (k : Nat) (v : α) :
    setMap m k v k = some v := if_pos rfl

/-- Reading an updated dictionary away from the written key. -/
theorem setMap_ne {α : Type} (m : Nat → Option α) (k : Nat) (v : α) (x : Nat)
    (h : x ≠ k) : setMap m k v x = m x := if_neg h

/-- The station count after one relaxation grows by the edge's delta. -/
theorem applyEdge_cnt (lines : List Line) (stations : List Station) (ts : TState)
    (nbr : Nat) (ew : Edge) :
    (applyEdge lines stations ts (nbr, ew)).cnt = ts.cnt + ew.stationsDelta := by
  cases ew <;> rfl

/-- The node after one relaxation is the traversed neighbor. -/
theorem applyEdge_cur (lines : List Line) (stations : List Station) (ts : TState)
    (nbr : Nat) (ew : Edge) :
    (applyEdge lines stations ts (nbr, ew)).cur = nbr := by
  cases ew <;> rfl

/-- The tuple-and-record relaxation of the search is the combined-state
relaxation. -/
theorem relaxed_eq_T (lines : List Line) (stations : List Station) (ts : TState)
    (nbr : Nat) (ew : Edge) :
    relaxed lines stations (entryOfT ts) (infoOfT ts) nbr ew =
      (entryOfT (applyEdge lines stations ts (nbr, ew)),
       infoOfT (applyEdge lines stations ts (nbr, ew))) := rfl

/-- Walk state after one more edge. -/
theorem runT_snoc (lines : List Line) (stations : List Station) (st : Station)
    (tr : List (Nat × Edge)) (x : Nat × Edge) :
    runT lines stations st (tr ++ [x]) =
      applyEdge lines stations (runT lines stations st tr) x := by
  unfold runT
  rw [List.foldl_append]
  rfl

/-- Extending a chained walk by one edge leaving its final node. -/
theorem TraceFrom_snoc (edges : List (Nat × Nat × Edge)) :
    ∀ (tr : List (Nat × Edge)) (u nbr : Nat) (ew : Edge),
    TraceFrom edges u tr → (traceEnd u tr, nbr, ew) ∈ edges →
    TraceFrom edges u (tr ++ [(nbr, ew)]) := by
  intro tr
  induction tr with
  | nil => intro u nbr ew h hm; exact ⟨hm, trivial⟩
  | cons q t ih =>
    intro u nbr ew h hm
    obtain ⟨n1, e1⟩ := q
    obtain ⟨h1, h2⟩ := h
    exact ⟨h1, ih n1 nbr ew h2 hm⟩

/-- The current node of a folded walk is the walk's final node. -/
theorem foldl_applyEdge_cur (lines : List Line) (stations : List Station) :
    ∀ (tr : List (Nat × Edge)) (ts : TState),
    (tr.foldl (applyEdge lines stations) ts).cur = traceEnd ts.cur tr := by
  intro tr
  induction tr with
  | nil => intro ts; rfl
  | cons q t ih =>
    intro ts
    obtain ⟨nbr, ew⟩ := q
    rw [List.foldl_cons]
    rw [ih]
    rw [applyEdge_cur]
    rfl

/-- Adjacency membership unfolds to membership of the edge list. -/
theorem mem_adjOf {edges : List (Nat × Nat × Edge)} {sid nbr : Nat} {ew : Edge} :
    (nbr, ew) ∈ adjOf edges sid ↔ (sid, nbr, ew) ∈ edges := by
  unfold adjOf
  rw [List.mem_map]
  constructor
  · rintro ⟨t, ht, hEq⟩
    obtain ⟨h1, h2⟩ := List.mem_filter.mp ht
    obtain ⟨t1, t2⟩ := t
    have h3 : t1 = sid := by simpa using h2
    rw [← hEq]
    rw [h3] at h1
    exact h1
  · intro h
    exact ⟨(sid, nbr, ew), List.mem_filter.mpr ⟨h, by simp⟩, rfl⟩

/-- The entry invariant only weakens when the visited set grows. -/
theorem EntryInv_mono (lines : List Line) (stations : List Station) (s0 : Station)
    (edges : List (Nat × Nat × Edge)) (v1 v2 : List Nat)
    (dist : Nat → Option Nat) (info : Nat → Option Info) (x : Entry)
    (hsub : ∀ y, y ∈ v1 → y ∈ v2)
    (h : EntryInv lines stations s0 edges v1 dist info x) :
    EntryInv lines stations s0 edges v2 dist info x := by
  obtain ⟨tr, htr, he, hcond⟩ := h
  refine ⟨tr, htr, he, ?_⟩
  intro hnv hd
  exact hcond (fun hv => hnv (hsub _ hv)) hd

/-- Preservation of the run invariant through the neighbor loop of one
expansion: the popped entry `e` realises the walk `tr`, its station is
already marked visited, its recorded distance and `path_info` record are
fresh, and every processed adjacency entry is an edge leaving `e.sid`. -/
theorem relaxAll_preserves (lines : List Line) (stations : List Station) (s0 : Station)
    (edges : List (Nat × Nat × Edge)) (visited : List Nat) (e : Entry)
    (tr : List (Nat × Edge))
    (htr : TraceFrom edges s0.id tr)
    (he : e = entryOfT (runT lines stations s0 tr))
    (hvis : e.sid ∈ visited) :
    ∀ (adjList : List (Nat × Edge)),
      (∀ q ∈ adjList, (e.sid, q.1, q.2) ∈ edges) →
      ∀ (dist : Nat → Option Nat) (info : Nat → Option Info) (pq : List Entry),
      dist e.sid = some e.cnt →
      info e.sid = some (infoOfT (runT lines stations s0 tr)) →
      (∀ x ∈ pq, EntryInv lines stations s0 edges visited dist info x) →
      (∀ x ∈ pq, ∃ d, dist x.sid = some d ∧ d ≤ x.cnt) →
      (∀ sid, sid ∉ visited → ∀ d, dist sid = some d →
          ∃ x ∈ pq, x.sid = sid ∧ x.cnt = d) →
      (∀ x ∈ (relaxAll lines stations e adjList dist info pq).2.2,
          EntryInv lines stations s0 edges visited
            (relaxAll lines stations e adjList dist info pq).1
            (relaxAll lines stations e adjList dist info pq).2.1 x) ∧
      (∀ x ∈ (relaxAll lines stations e adjList dist info pq).2.2,
          ∃ d, (relaxAll lines stations e adjList dist info pq).1 x.sid = some d ∧
            d ≤ x.cnt) ∧
      (∀ sid, sid ∉ visited → ∀ d,
          (relaxAll lines stations e adjList dist info pq).1 sid = some d →
          ∃ x ∈ (relaxAll lines stations e adjList dist info pq).2.2,
            x.sid = sid ∧ x.cnt = d) := by
  intro adjList
  induction adjList with
  | nil =>
    intro hadj dist info pq hd hi hA hB hE
    exact ⟨hA, hB, hE⟩
  | cons q rest ih =>
    obtain ⟨nbr, ew⟩ := q
    intro hadj dist info pq hd hi hA hB hE
    have hpi : (info e.sid).getD defaultInfo = infoOfT (runT lines stations s0 tr) := by
      rw [hi]
      rfl
    have hrel : relaxed lines stations e ((info e.sid).getD defaultInfo) nbr ew =
        (entryOfT (runT lines stations s0 (tr ++ [(nbr, ew)])),
         infoOfT (runT lines stations s0 (tr ++ [(nbr, ew)]))) := by
      rw [hpi, he, relaxed_eq_T, runT_snoc]
    have hcnt : (entryOfT (runT lines stations s0 (tr ++ [(nbr, ew)]))).cnt =
        e.cnt + ew.stationsDelta := by
      rw [he]
      show (runT lines stations s0 (tr ++ [(nbr, ew)])).cnt =
        (runT lines stations s0 tr).cnt + ew.stationsDelta
      rw [runT_snoc, applyEdge_cnt]
    have hsid : (entryOfT (runT lines stations s0 (tr ++ [(nbr, ew)]))).sid = nbr := by
      show (runT lines stations s0 (tr ++ [(nbr, ew)])).cur = nbr
      rw [runT_snoc, applyEdge_cur]
    have hend : traceEnd s0.id tr = e.sid := by
      rw [he]
      show traceEnd s0.id tr = (runT lines stations s0 tr).cur
      unfold runT
      rw [foldl_applyEdge_cur]
      rfl
    simp only [relaxAll]
    by_cases hlt :
        ltDist (dist nbr) (entryOfT (runT lines stations s0 (tr ++ [(nbr, ew)]))).cnt = true
    · have hcons : relaxStep lines stations e nbr ew dist info pq =
          (setMap dist nbr (entryOfT (runT lines stations s0 (tr ++ [(nbr, ew)]))).cnt,
           setMap info nbr (infoOfT (runT lines stations s0 (tr ++ [(nbr, ew)]))),
           pq ++ [entryOfT (runT lines stations s0 (tr ++ [(nbr, ew)]))]) := by
        unfold relaxStep considerNeighbor
        rw [hrel]
        rw [if_pos hlt]
      have hne_sid : nbr ≠ e.sid := by
        intro hEq
        have h0 : dist nbr = some e.cnt := by rw [hEq]; exact hd
        rw [h0] at hlt
        simp only [ltDist] at hlt
        have h2 := of_decide_eq_true hlt
        rw [hcnt] at h2
        omega
      have hd' : setMap dist nbr
          (entryOfT (runT lines stations s0 (tr ++ [(nbr, ew)]))).cnt e.sid = some e.cnt := by
        rw [setMap_ne _ _ _ _ (Ne.symm hne_sid)]
        exact hd
      have hi' : setMap info nbr
          (infoOfT (runT lines stations s0 (tr ++ [(nbr, ew)]))) e.sid =
          some (infoOfT (runT lines stations s0 tr)) := by
        rw [setMap_ne _ _ _ _ (Ne.symm hne_sid)]
        exact hi
      have htr' : TraceFrom edges s0.id (tr ++ [(nbr, ew)]) := by
        apply TraceFrom_snoc edges tr s0.id nbr ew htr
        rw [hend]
        exact hadj (nbr, ew) (List.mem_cons_self _ _)
      have hA' : ∀ x ∈ pq ++ [entryOfT (runT lines stations s0 (tr ++ [(nbr, ew)]))],
          EntryInv lines stations s0 edges visited
            (setMap dist nbr (entryOfT (runT lines stations s0 (tr ++ [(nbr, ew)]))).cnt)
            (setMap info nbr (infoOfT (runT lines stations s0 (tr ++ [(nbr, ew)])))) x := by
        intro x hx
        rcases List.mem_append.mp hx with hx2 | hx2
        · obtain ⟨trx, htrx, hex, hcondx⟩ := hA x hx2
          refine ⟨trx, htrx, hex, ?_⟩
          intro hnv hdx
          by_cases hxs : x.sid = nbr
          · exfalso
            rw [hxs, setMap_self] at hdx
            obtain ⟨d0, hd0, hle0⟩ := hB x hx2
            rw [hxs] at hd0
            rw [hd0] at hlt
            simp only [ltDist] at hlt
            have h2 := of_decide_eq_true hlt
            rw [Option.some.injEq] at hdx
            omega
          · rw [setMap_ne _ _ _ _ hxs] at hdx
            rw [setMap_ne _ _ _ _ hxs]
            exact hcondx hnv hdx
        · have hx3 : x = entryOfT (runT lines stations s0 (tr ++ [(nbr, ew)])) := by
            simpa using hx2
          subst hx3
          refine ⟨tr ++ [(nbr, ew)], htr', rfl, ?_⟩
          intro hnv hdx
          rw [hsid, setMap_self]
      have hB' : ∀ x ∈ pq ++ [entryOfT (runT lines stations s0 (tr ++ [(nbr, ew)]))],
          ∃ d, setMap dist nbr
            (entryOfT (runT lines stations s0 (tr ++ [(nbr, ew)]))).cnt x.sid = some d ∧
            d ≤ x.cnt := by
        intro x hx
        rcases List.mem_append.mp hx with hx2 | hx2
        · by_cases hxs : x.sid = nbr
          · refine ⟨_, by rw [hxs, setMap_self], ?_⟩
            obtain ⟨d0, hd0, hle0⟩ := hB x hx2
            rw [hxs] at hd0
            rw [hd0] at hlt
            simp only [ltDist] at hlt
            have h2 := of_decide_eq_true hlt
            omega
          · obtain ⟨d0, hd0, hle0⟩ := hB x hx2
            exact ⟨d0, by rw [setMap_ne _ _ _ _ hxs]; exact hd0, hle0⟩
        · have hx3 : x = entryOfT (runT lines stations s0 (tr ++ [(nbr, ew)])) := by
            simpa using hx2
          subst hx3
          exact ⟨_, by rw [hsid, setMap_self], le_refl _⟩
      have hE' : ∀ sid, sid ∉ visited → ∀ d, setMap dist nbr
          (entryOfT (runT lines stations s0 (tr ++ [(nbr, ew)]))).cnt sid = some d →
          ∃ x ∈ pq ++ [entryOfT (runT lines stations s0 (tr ++ [(nbr, ew)]))],
            x.sid = sid ∧ x.cnt = d := by
        intro sid hnv d hds
        by_cases hs : sid = nbr
        · rw [hs, setMap_self, Option.some.injEq] at hds
          refine ⟨entryOfT (runT lines stations s0 (tr ++ [(nbr, ew)])),
            List.mem_append.mpr (Or.inr (List.mem_cons_self _ _)), ?_, ?_⟩
          · rw [hsid, hs]
          · rw [hds]
        · rw [setMap_ne _ _ _ _ hs] at hds
          obtain ⟨x, hx, hxs, hxc⟩ := hE sid hnv d hds
          exact ⟨x, List.mem_append.mpr (Or.inl hx), hxs, hxc⟩
      rw [hcons]
      exact ih (fun q hq => hadj q (List.mem_cons_of_mem _ hq)) _ _ _ hd' hi' hA' hB' hE'
    · have hcons : relaxStep lines stations e nbr ew dist info pq = (dist, info, pq) := by
        unfold relaxStep considerNeighbor
        rw [hrel]
        rw [if_neg hlt]
      rw [hcons]
      exact ih (fun q hq => hadj q (List.mem_cons_of_mem _ hq)) _ _ _ hd hi hA hB hE

/-- Preservation of the run and best invariants by one iteration of the
`while pq` loop. -/
theorem loopStep_preserves (lines : List Line) (stations : List Station)
    (edges : List (Nat × Nat × Edge)) (endName : String) (s0 : Station) (src : String)
    (hs0 : s0 ∈ station_map stations src)
    (s : RunState) (best : Option Candidate) (e : Entry) (rest : List Entry)
    (hpop : popMin s.pq = some (e, rest))
    (hok : StateOK lines stations s0 edges s)
    (hbest : BestOK lines stations src edges best) :
    StateOK lines stations s0 edges (loopStep lines stations edges endName e rest s best).1 ∧
    BestOK lines stations src edges (loopStep lines stations edges endName e rest s best).2 := by
  obtain ⟨hA, hB, hE⟩ := hok
  obtain ⟨hmem, hsplit, hrest, hmin⟩ := popMin_spec _ _ _ hpop
  unfold loopStep
  by_cases hv : e.sid ∈ s.visited
  · rw [if_pos hv]
    refine ⟨⟨?_, ?_, ?_⟩, hbest⟩
    · intro x hx
      exact hA x (hrest x hx)
    · intro x hx
      exact hB x (hrest x hx)
    · intro sid hnv d hds
      obtain ⟨x, hx, hxs, hxc⟩ := hE sid hnv d hds
      have hsidne : sid ≠ e.sid := fun hEq => hnv (hEq ▸ hv)
      have hxe : x ≠ e := fun hEq => hsidne (by rw [← hxs, hEq])
      rcases hsplit x hx with h5 | h5
      · exact absurd h5 hxe
      · exact ⟨x, h5, hxs, hxc⟩
  · rw [if_neg hv]
    have hfresh : s.dist e.sid = some e.cnt := by
      obtain ⟨d, hd, hdle⟩ := hB e hmem
      rcases Nat.lt_or_ge d e.cnt with hlt | hge
      · exfalso
        obtain ⟨x, hx, hxs, hxc⟩ := hE e.sid hv d hd
        have h6 := hmin x hx
        omega
      · have h7 : d = e.cnt := by omega
        rw [h7] at hd
        exact hd
    obtain ⟨tr, htr, he, hcond⟩ := hA e hmem
    have hinfo := hcond hv hfresh
    by_cases hdst : (station_id_to_obj stations e.sid).name = endName
    · rw [if_pos hdst]
      constructor
      · refine ⟨?_, ?_, ?_⟩
        · intro x hx
          exact EntryInv_mono lines stations s0 edges s.visited (e.sid :: s.visited)
            s.dist s.info x (fun y hy => List.mem_cons_of_mem _ hy) (hA x (hrest x hx))
        · intro x hx
          exact hB x (hrest x hx)
        · intro sid hnv d hds
          have hnv2 : sid ∉ s.visited := fun h => hnv (List.mem_cons_of_mem _ h)
          have hsidne : sid ≠ e.sid := fun hEq => hnv (hEq ▸ List.mem_cons_self _ _)
          obtain ⟨x, hx, hxs, hxc⟩ := hE sid hnv2 d hds
          have hxe : x ≠ e := fun hEq => hsidne (by rw [← hxs, hEq])
          rcases hsplit x hx with h5 | h5
          · exact absurd h5 hxe
          · exact ⟨x, h5, hxs, hxc⟩
      · intro c hc
        have hgetD : (s.info e.sid).getD defaultInfo =
            infoOfT (runT lines stations s0 tr) := by
          rw [hinfo]
          rfl
        have hcand : CandInv lines stations src edges
            ⟨e.cnt, e.path, e.fare, e.time,
              ((s.info e.sid).getD defaultInfo).interchanges,
              ((s.info e.sid).getD defaultInfo).line_changes⟩ := by
          refine ⟨s0, hs0, tr, htr, ?_⟩
          rw [hgetD, he]
          rfl
        unfold updateBest at hc
        cases best with
        | none =>
          rw [Option.some.injEq] at hc
          rw [← hc]
          exact hcand
        | some b =>
          dsimp only at hc
          split at hc
          · rw [Option.some.injEq] at hc
            rw [← hc]
            exact hcand
          · rw [Option.some.injEq] at hc
            rw [← hc]
            exact hbest b rfl
    · rw [if_neg hdst]
      have hAr : ∀ x ∈ rest,
          EntryInv lines stations s0 edges (e.sid :: s.visited) s.dist s.info x :=
        fun x hx => EntryInv_mono lines stations s0 edges s.visited (e.sid :: s.visited)
          s.dist s.info x (fun y hy => List.mem_cons_of_mem _ hy) (hA x (hrest x hx))
      have hBr : ∀ x ∈ rest, ∃ d, s.dist x.sid = some d ∧ d ≤ x.cnt :=
        fun x hx => hB x (hrest x hx)
      have hEr : ∀ sid, sid ∉ (e.sid :: s.visited) → ∀ d, s.dist sid = some d →
          ∃ x ∈ rest, x.sid = sid ∧ x.cnt = d := by
        intro sid hnv d hds
        have hnv2 : sid ∉ s.visited := fun h => hnv (List.mem_cons_of_mem _ h)
        have hsidne : sid ≠ e.sid := fun hEq => hnv (hEq ▸ List.mem_cons_self _ _)
        obtain ⟨x, hx, hxs, hxc⟩ := hE sid hnv2 d hds
        have hxe : x ≠ e := fun hEq => hsidne (by rw [← hxs, hEq])
        rcases hsplit x hx with h5 | h5
        · exact absurd h5 hxe
        · exact ⟨x, h5, hxs, hxc⟩
      have hpres := relaxAll_preserves lines stations s0 edges (e.sid :: s.visited) e tr
        htr he (List.mem_cons_self _ _) (adjOf edges e.sid)
        (fun q hq => by obtain ⟨q1, q2⟩ := q; exact mem_adjOf.mp hq)
        s.dist s.info rest hfresh hinfo hAr hBr hEr
      exact ⟨⟨hpres.1, hpres.2.1, hpres.2.2⟩, hbest⟩

/-- The best-candidate invariant is preserved by a whole run. -/
theorem runLoop_preserves (lines : List Line) (stations : List Station)
    (edges : List (Nat × Nat × Edge)) (endName : String) (s0 : Station) (src : String)
    (hs0 : s0 ∈ station_map stations src) :
    ∀ (fuel : Nat) (s : RunState) (best : Option Candidate),
    StateOK lines stations s0 edges s → BestOK lines stations src edges best →
    BestOK lines stations src edges (runLoop lines stations edges endName fuel s best) := by
  intro fuel
  induction fuel with
  | zero => intro s best hok hbest; exact hbest
  | succ n ih =>
    intro s best hok hbest
    simp only [runLoop]
    cases hpop : popMin s.pq with
    | none => exact hbest
    | some pr =>
      obtain ⟨e, rest⟩ := pr
      dsimp only
      have h2 := loopStep_preserves lines stations edges endName s0 src hs0
        s best e rest hpop hok hbest
      exact ih _ _ h2.1 h2.2

/-- The initial state of a run satisfies the run invariant. -/
theorem initState_ok (lines : List Line) (stations : List Station) (s0 : Station)
    (edges : List (Nat × Nat × Edge)) :
    StateOK lines stations s0 edges (initState s0) := by
  refine ⟨?_, ?_, ?_⟩
  · intro x hx
    have hx2 : x = ⟨0, s0.id, [s0.id], 0, 0, s0.line_id, 1⟩ := by
      simpa [initState] using hx
    subst hx2
    refine ⟨[], trivial, rfl, ?_⟩
    intro hnv hd
    show (initState s0).info s0.id = _
    simp [initState, runT, initT, infoOfT]
  · intro x hx
    have hx2 : x = ⟨0, s0.id, [s0.id], 0, 0, s0.line_id, 1⟩ := by
      simpa [initState] using hx
    subst hx2
    refine ⟨0, ?_, le_refl 0⟩
    show (initState s0).dist s0.id = some 0
    simp [initState]
  · intro sid hnv d hds
    by_cases hs : sid = s0.id
    · refine ⟨⟨0, s0.id, [s0.id], 0, 0, s0.line_id, 1⟩, by simp [initState], hs.symm, ?_⟩
      have h2 : (initState s0).dist sid = some 0 := by simp [initState, hs]
      rw [h2, Option.some.injEq] at hds
      exact hds
    · exfalso
      have h2 : (initState s0).dist sid = none := by simp [initState, hs]
      rw [h2] at hds
      exact Option.noConfusion hds

/-- The best-candidate invariant holds after folding the runs of all
source-named start nodes. -/
theorem foldl_runs_ok (lines : List Line) (stations : List Station)
    (edges : List (Nat × Nat × Edge)) (src endName : String) :
    ∀ (starts : List Station), (∀ st ∈ starts, st ∈ station_map stations src) →
    ∀ best, BestOK lines stations src edges best →
    BestOK lines stations src edges
      (starts.foldl (fun b st =>
        runLoop lines stations edges endName (searchFuel stations edges)
          (initState st) b) best) := by
  intro starts
  induction starts with
  | nil => intro h best hbest; exact hbest
  | cons st t ih =>
    intro h best hbest
    rw [List.foldl_cons]
    apply ih (fun x hx => h x (List.mem_cons_of_mem _ hx))
    exact runLoop_preserves lines stations edges endName st src
      (h st (List.mem_cons_self _ _)) _ _ _
      (initState_ok lines stations st edges) hbest

/-- Station count accumulated along a walk. -/
theorem foldl_applyEdge_cnt (lines : List Line) (stations : List Station) :
    ∀ (tr : List (Nat × Edge)) (ts : TState),
    (tr.foldl (applyEdge lines stations) ts).cnt = ts.cnt + ridesCount tr := by
  intro tr
  induction tr with
  | nil => intro ts; simp [ridesCount]
  | cons q t ih =>
    intro ts
    obtain ⟨nbr, ew⟩ := q
    rw [List.foldl_cons, ih, applyEdge_cnt]
    cases ew <;> simp only [ridesCount, Edge.stationsDelta] <;> omega

/-- Number of line-change records accumulated along a walk. -/
theorem foldl_applyEdge_lchs (lines : List Line) (stations : List Station) :
    ∀ (tr : List (Nat × Edge)) (ts : TState),
    ((tr.foldl (applyEdge lines stations) ts).lchs).length =
      ts.lchs.length + transfersCount tr := by
  intro tr
  induction tr with
  | nil => intro ts; simp [transfersCount]
  | cons q t ih =>
    intro ts
    obtain ⟨nbr, ew⟩ := q
    rw [List.foldl_cons, ih]
    cases ew with
    | ride t0 f0 lid => simp only [applyEdge, transfersCount]
    | transfer t0 f0 a0 b0 =>
      simp only [applyEdge, transfersCount, List.length_append, List.length_cons,
        List.length_nil]
      omega

/-- Fare accumulated along a walk, in terms of `fareDelta`. -/
theorem foldl_applyEdge_fare (lines : List Line) (stations : List Station) :
    ∀ (tr : List (Nat × Edge)) (ts : TState),
    (tr.foldl (applyEdge lines stations) ts).fare = ts.fare + fareDelta ts.seg tr := by
  intro tr
  induction tr with
  | nil => intro ts; simp [fareDelta]
  | cons q t ih =>
    intro ts
    obtain ⟨nbr, ew⟩ := q
    rw [List.foldl_cons, ih]
    cases ew with
    | ride t0 f0 lid =>
      simp only [applyEdge, fareDelta]
      ring
    | transfer t0 f0 a0 b0 =>
      simp only [applyEdge, fareDelta]
      ring

/-- Charged hops of a segment decomposition, after one more ride hop of the
first segment. -/
theorem chargeNat_ride (s F : Nat) (R : List Nat) :
    chargeNat s (F + 1, R) = (if s + 1 ≤ 2 then 0 else 1) + chargeNat (s + 1) (F, R) := by
  unfold chargeNat
  dsimp only
  split <;> omega

/-- Charged hops of a segment decomposition, after a transfer opened a new
empty first segment. -/
theorem chargeNat_transfer (s F : Nat) (R : List Nat) :
    chargeNat s (0, F :: R) = chargeNat 0 (F, R) := by
  unfold chargeNat
  dsimp only
  simp only [List.map_cons, List.sum_cons]
  omega

/-- The loop's fare accumulation along a walk whose transfer edges all carry
fare 2.0 equals 2 per transfer plus 5 per charged ride hop. -/
theorem fareDelta_formula : ∀ (tr : List (Nat × Edge)) (s : Nat), TransfersFare2 tr →
    fareDelta s tr = 2 * (transfersCount tr : ℚ) + 5 * (chargeNat s (segLens tr) : ℚ) := by
  intro tr
  induction tr with
  | nil =>
    intro s h
    simp [fareDelta, transfersCount, segLens, chargeNat]
  | cons q t ih =>
    intro s h
    have ht : TransfersFare2 t := fun p hp => h p (List.mem_cons_of_mem _ hp)
    obtain ⟨nbr, ew⟩ := q
    cases ew with
    | ride t0 f0 lid =>
      simp only [fareDelta, transfersCount, segLens]
      rw [ih (s + 1) ht]
      have hc := chargeNat_ride s (segLens t).1 (segLens t).2
      rw [show ((segLens t).1, (segLens t).2) = segLens t from rfl] at hc
      rw [hc]
      by_cases hs : s + 1 ≤ 2
      · simp only [hs, if_true]
        push_cast
        ring
      · simp only [hs, if_false]
        push_cast
        ring
    | transfer t0 f0 a0 b0 =>
      have hf : f0 = 2 :=
        h (nbr, Edge.transfer t0 f0 a0 b0) (List.mem_cons_self _ _) t0 f0 a0 b0 rfl
      simp only [fareDelta, transfersCount, segLens]
      rw [hf, ih 0 ht]
      have hc := chargeNat_transfer s (segLens t).1 (segLens t).2
      rw [show ((segLens t).1, (segLens t).2) = segLens t from rfl] at hc
      rw [hc]
      push_cast
      ring

/-- The segment lengths of a walk add up to its ride-hop count. -/
theorem segLens_sum : ∀ tr : List (Nat × Edge),
    (segLens tr).1 + ((segLens tr).2).sum = ridesCount tr := by
  intro tr
  induction tr with
  | nil => rfl
  | cons q t ih =>
    obtain ⟨nbr, ew⟩ := q
    cases ew <;> simp only [segLens, ridesCount, List.sum_cons] <;> omega

/-- Every transfer edge of a walk through a built graph carries fare 2.0. -/
theorem traceFrom_fare2 (lines : List Line) (stations : List Station) :
    ∀ (tr : List (Nat × Edge)) (u : Nat),
    TraceFrom (build_graph lines stations) u tr → TransfersFare2 tr := by
  intro tr
  induction tr with
  | nil => intro u h p hp; simp at hp
  | cons q t ih =>
    intro u h
    obtain ⟨nbr, ew⟩ := q
    obtain ⟨hm, h2⟩ := h
    intro p hp t0 f0 a0 b0 hsh
    rcases List.mem_cons.mp hp with rfl | hp2
    · exact ((build_graph_transfer_weights lines stations u nbr ew hm)
        t0 f0 a0 b0 (by simpa using hsh)).2
    · exact ih nbr h2 p hp2 t0 f0 a0 b0 hsh

/-- Claim C1 states the fare formula `10 + 2t + 5 * sum of max(0, seg_i - 2)`.
On the code the first segment only gets one free ride hop (the segment
counter starts at 1, counting the start station): a transfer-free 3-hop path
costs 10 + 5*2 = 20, not the claimed 10 + 5*1 = 15. -/
theorem claim_C1_counterexample :
    find_shortest_path [exRed] [exA, exB, exC, exD] "A" "D" =
      some ⟨["A", "B", "C", "D"], 3, 20, [], "7.5 minutes", []⟩ ∧
    (20 : ℚ) ≠ 10 + 5 * ((3 : ℚ) - 2) := by
  constructor
  · exact of_decide_eq_true (by with_unfolding_all rfl)
  · norm_num

/-- A walk with no transfer crossings is one segment of all its ride hops. -/
theorem segLens_no_transfers : ∀ tr : List (Nat × Edge), transfersCount tr = 0 →
    segLens tr = (ridesCount tr, []) := by
  intro tr
  induction tr with
  | nil => intro h; rfl
  | cons q t ih =>
    obtain ⟨nbr, ew⟩ := q
    cases ew with
    | ride t0 f0 lid =>
      intro h
      have h2 : transfersCount t = 0 := h
      have h3 := ih h2
      show ((segLens t).1 + 1, (segLens t).2) = (ridesCount t + 1, [])
      rw [h3]
    | transfer t0 f0 a b =>
      intro h
      have h2 : transfersCount t + 1 = 0 := h
      exact absurd h2 (Nat.succ_ne_zero _)

/-- Claim C1 amended.  The claimed formula's transfer component describes
behavior the program does not have: the transfer relaxation always raises
(claim C4), so every route the program actually returns comes from a
crash-free run in which no transfer edge was ever relaxed, and hence has an
empty lineChanges list.  For those routes: the route comes from a
transfer-free walk through the built graph starting at a source-named
station, its totalStations is the walk's ride-hop count `k`, and totalFare
= 10 (when k > 0) + 5 * max(0, k - 1) — the single segment gets ONE free
ride hop, not the two the claim grants it (the segment counter starts at 1,
counting the start station; truncated natural subtraction plays max(0, ·)). -/
theorem claim_C1_amended (lines : List Line) (stations : List Station)
    (src dst : String) (r : RouteResult)
    (h : find_shortest_path lines stations src dst = some r)
    (h0 : r.lineChanges = []) :
    ∃ s0 ∈ station_map stations src, ∃ tr : List (Nat × Edge),
      TraceFrom (build_graph lines stations) s0.id tr ∧
      transfersCount tr = 0 ∧
      r.totalStations = ridesCount tr ∧
      r.totalFare = (if 0 < r.totalStations then (10:ℚ) else 0) +
        5 * ((r.totalStations - 1 : ℕ) : ℚ) := by
  unfold find_shortest_path at h
  split at h
  · exact Option.noConfusion h
  · cases hfold : (station_map stations src).foldl
        (fun best st =>
          runLoop lines stations (build_graph lines stations) dst
            (searchFuel stations (build_graph lines stations)) (initState st) best)
        none with
    | none => rw [hfold] at h; exact Option.noConfusion h
    | some b =>
      rw [hfold] at h
      dsimp only at h
      rw [Option.some.injEq] at h
      subst h
      have hbest := foldl_runs_ok lines stations (build_graph lines stations) src dst
        (station_map stations src) (fun st hst => hst) none
        (fun c hc => Option.noConfusion hc)
      obtain ⟨s0, hs0, tr, htr, hc⟩ := hbest b hfold
      have hcnt : b.cnt = ridesCount tr := by
        rw [hc]
        show (runT lines stations s0 tr).cnt = ridesCount tr
        unfold runT
        rw [foldl_applyEdge_cnt]
        simp [initT]
      have hlch : b.line_changes.length = transfersCount tr := by
        rw [hc]
        show (runT lines stations s0 tr).lchs.length = transfersCount tr
        unfold runT
        rw [foldl_applyEdge_lchs]
        simp [initT]
      have hfare : b.fare =
          2 * (transfersCount tr : ℚ) + 5 * (chargeNat 1 (segLens tr) : ℚ) := by
        rw [hc]
        show (runT lines stations s0 tr).fare = _
        unfold runT
        rw [foldl_applyEdge_fare]
        have h2 := fareDelta_formula tr 1 (traceFrom_fare2 lines stations tr s0.id htr)
        simp only [initT] at h2 ⊢
        rw [h2]
        ring
      have h0b : b.line_changes = [] := h0
      have ht0 : transfersCount tr = 0 := by
        rw [← hlch, h0b]
        rfl
      have hcharge : chargeNat 1 (segLens tr) = ridesCount tr - 1 := by
        rw [segLens_no_transfers tr ht0]
        show (ridesCount tr - (2 - 1)) + (([] : List Nat).map (fun L => L - 2)).sum =
          ridesCount tr - 1
        simp
      refine ⟨s0, hs0, tr, htr, ht0, hcnt, ?_⟩
      show b.fare + (if 0 < b.cnt then (10:ℚ) else 0) =
        (if 0 < b.cnt then (10:ℚ) else 0) + 5 * ((b.cnt - 1 : ℕ) : ℚ)
      rw [hfare, ht0, hcharge, hcnt]
      simp only [Nat.cast_zero]
      ring

/-- Witness for the amended claim C1 at the four-station line, where the
established route A→D is transfer-free with 3 ride hops and fare
20 = 10 + 5*(3-1). -/
theorem claim_C1_amended_witness :
    ∃ s0 ∈ station_map [exA, exB, exC, exD] "A", ∃ tr : List (Nat × Edge),
      TraceFrom (build_graph [exRed] [exA, exB, exC, exD]) s0.id tr ∧
      transfersCount tr = 0 ∧
      (⟨["A", "B", "C", "D"], 3, 20, [], "7.5 minutes", []⟩ :
          RouteResult).totalStations = ridesCount tr ∧
      (⟨["A", "B", "C", "D"], 3, 20, [], "7.5 minutes", []⟩ :
          RouteResult).totalFare =
        (if 0 < (⟨["A", "B", "C", "D"], 3, 20, [], "7.5 minutes", []⟩ :
            RouteResult).totalStations then (10:ℚ) else 0) +
        5 * (((⟨["A", "B", "C", "D"], 3, 20, [], "7.5 minutes", []⟩ :
            RouteResult).totalStations - 1 : ℕ) : ℚ) :=
  claim_C1_amended [exRed] [exA, exB, exC, exD] "A" "D"
    ⟨["A", "B", "C", "D"], 3, 20, [], "7.5 minutes", []⟩
    (of_decide_eq_true (by with_unfolding_all rfl)) rfl

/-! ## Completeness of one search run: structural lemmas -/

/-- Popping removes exactly one element from the queue. -/
theorem popMin_length : ∀ (pq : List Entry) (e : Entry) (rest : List Entry),
    popMin pq = some (e, rest) → pq.length = rest.length + 1 := by
  intro pq
  induction pq with
  | nil => intro e rest h; rw [popMin] at h; exact Option.noConfusion h
  | cons a t ih =>
    intro e rest h
    rw [popMin] at h
    cases h2 : popMin t with
    | none =>
      rw [h2] at h
      have ht : t = [] := popMin_none _ h2
      subst ht
      rw [Option.some.injEq, Prod.mk.injEq] at h
      obtain ⟨rfl, rfl⟩ := h
      rfl
    | some pr =>
      obtain ⟨m, r⟩ := pr
      rw [h2] at h
      dsimp only at h
      by_cases h3 : entryLe a m = true
      · rw [if_pos h3, Option.some.injEq, Prod.mk.injEq] at h
        obtain ⟨rfl, rfl⟩ := h
        rfl
      · rw [if_neg h3, Option.some.injEq, Prod.mk.injEq] at h
        obtain ⟨rfl, rfl⟩ := h
        have h4 := ih m r h2
        simp only [List.length_cons]
        omega

/-- The tuple built by a relaxation towards `nbr` carries station id `nbr`. -/
theorem relaxed_sid (lines : List Line) (stations : List Station) (e : Entry)
    (pi : Info) (nbr : Nat) (ew : Edge) :
    ((relaxed lines stations e pi nbr ew).1).sid = nbr := by
  cases ew <;> rfl

/-- Case analysis of one neighbor-relaxation step: either the strict
improvement guard passes and the records are replaced and a tuple pushed,
or everything is unchanged and the neighbor already has a recorded distance
not larger than the candidate count. -/
theorem relaxStep_cases (lines : List Line) (stations : List Station) (e : Entry)
    (nbr : Nat) (ew : Edge) (dist : Nat → Option Nat) (info : Nat → Option Info)
    (pq : List Entry) :
    (relaxStep lines stations e nbr ew dist info pq =
      (setMap dist nbr
         ((relaxed lines stations e ((info e.sid).getD defaultInfo) nbr ew).1).cnt,
       setMap info nbr
         (relaxed lines stations e ((info e.sid).getD defaultInfo) nbr ew).2,
       pq ++ [(relaxed lines stations e ((info e.sid).getD defaultInfo) nbr ew).1]) ∧
     ltDist (dist nbr)
       ((relaxed lines stations e ((info e.sid).getD defaultInfo) nbr ew).1).cnt = true) ∨
    (relaxStep lines stations e nbr ew dist info pq = (dist, info, pq) ∧
     ∃ d0, dist nbr = some d0 ∧
       d0 ≤ ((relaxed lines stations e ((info e.sid).getD defaultInfo) nbr ew).1).cnt) := by
  unfold relaxStep considerNeighbor
  by_cases hlt : ltDist (dist nbr)
      ((relaxed lines stations e ((info e.sid).getD defaultInfo) nbr ew).1).cnt = true
  · rw [if_pos hlt]
    exact Or.inl ⟨rfl, hlt⟩
  · rw [if_neg hlt]
    refine Or.inr ⟨rfl, ?_⟩
    cases hd : dist nbr with
    | none => exact absurd (by rw [hd]; rfl) hlt
    | some d0 =>
      refine ⟨d0, rfl, ?_⟩
      rw [hd] at hlt
      simp only [ltDist] at hlt
      have h2 : ¬ (((relaxed lines stations e ((info e.sid).getD defaultInfo) nbr ew).1).cnt
          < d0) := fun h => hlt (decide_eq_true h)
      omega

/-- Queue entries survive the neighbor loop. -/
theorem relaxAll_pq_subset (lines : List Line) (stations : List Station) (e : Entry) :
    ∀ (adjList : List (Nat × Edge)) (dist : Nat → Option Nat)
      (info : Nat → Option Info) (pq : List Entry),
    ∀ x ∈ pq, x ∈ (relaxAll lines stations e adjList dist info pq).2.2 := by
  intro adjList
  induction adjList with
  | nil => intro dist info pq x hx; exact hx
  | cons q0 rest ih =>
    obtain ⟨nbr, ew⟩ := q0
    intro dist info pq x hx
    simp only [relaxAll]
    rcases relaxStep_cases lines stations e nbr ew dist info pq with ⟨hcons, -⟩ | ⟨hcons, -⟩
    · rw [hcons]
      exact ih _ _ _ x (List.mem_append.mpr (Or.inl hx))
    · rw [hcons]
      exact ih _ _ _ x hx

/-- The neighbor loop pushes at most one entry per adjacency element. -/
theorem relaxAll_pq_length (lines : List Line) (stations : List Station) (e : Entry) :
    ∀ (adjList : List (Nat × Edge)) (dist : Nat → Option Nat)
      (info : Nat → Option Info) (pq : List Entry),
    ((relaxAll lines stations e adjList dist info pq).2.2).length ≤
      pq.length + adjList.length := by
  intro adjList
  induction adjList with
  | nil => intro dist info pq; exact Nat.le_add_right _ _
  | cons q0 rest ih =>
    obtain ⟨nbr, ew⟩ := q0
    intro dist info pq
    simp only [relaxAll]
    rcases relaxStep_cases lines stations e nbr ew dist info pq with ⟨hcons, -⟩ | ⟨hcons, -⟩
    · rw [hcons]
      refine le_trans (ih _ _ _) ?_
      dsimp only
      simp only [List.length_append, List.length_cons, List.length_nil]
      omega
    · rw [hcons]
      refine le_trans (ih _ _ _) ?_
      simp only [List.length_cons]
      omega

/-- Every queue entry after the neighbor loop was already queued or carries
the id of one of the processed neighbors. -/
theorem relaxAll_pq_chars (lines : List Line) (stations : List Station) (e : Entry) :
    ∀ (adjList : List (Nat × Edge)) (dist : Nat → Option Nat)
      (info : Nat → Option Info) (pq : List Entry),
    ∀ x ∈ (relaxAll lines stations e adjList dist info pq).2.2,
      x ∈ pq ∨ ∃ q ∈ adjList, x.sid = q.1 := by
  intro adjList
  induction adjList with
  | nil => intro dist info pq x hx; exact Or.inl hx
  | cons q0 rest ih =>
    obtain ⟨nbr, ew⟩ := q0
    intro dist info pq x hx
    simp only [relaxAll] at hx
    rcases relaxStep_cases lines stations e nbr ew dist info pq with ⟨hcons, -⟩ | ⟨hcons, -⟩
    · rw [hcons] at hx
      rcases ih _ _ _ x hx with h2 | ⟨q, hq, hqs⟩
      · have h3 : x ∈ pq ++
            [(relaxed lines stations e ((info e.sid).getD defaultInfo) nbr ew).1] := h2
        rcases List.mem_append.mp h3 with h4 | h4
        · exact Or.inl h4
        · have h5 : x = (relaxed lines stations e ((info e.sid).getD defaultInfo) nbr ew).1 := by
            simpa using h4
          refine Or.inr ⟨(nbr, ew), List.mem_cons_self _ _, ?_⟩
          rw [h5, relaxed_sid]
      · exact Or.inr ⟨q, List.mem_cons_of_mem _ hq, hqs⟩
    · rw [hcons] at hx
      rcases ih _ _ _ x hx with h2 | ⟨q, hq, hqs⟩
      · exact Or.inl h2
      · exact Or.inr ⟨q, List.mem_cons_of_mem _ hq, hqs⟩

/-- A recorded distance stays recorded through the neighbor loop. -/
theorem relaxAll_dist_some_mono (lines : List Line) (stations : List Station) (e : Entry) :
    ∀ (adjList : List (Nat × Edge)) (dist : Nat → Option Nat)
      (info : Nat → Option Info) (pq : List Entry) (u : Nat) (d : Nat),
    dist u = some d →
    ∃ d2, (relaxAll lines stations e adjList dist info pq).1 u = some d2 := by
  intro adjList
  induction adjList with
  | nil => intro dist info pq u d h; exact ⟨d, h⟩
  | cons q0 rest ih =>
    obtain ⟨nbr, ew⟩ := q0
    intro dist info pq u d h
    simp only [relaxAll]
    rcases relaxStep_cases lines stations e nbr ew dist info pq with ⟨hcons, -⟩ | ⟨hcons, -⟩
    · rw [hcons]
      by_cases hu : u = nbr
      · refine ih _ _ _ u
          ((relaxed lines stations e ((info e.sid).getD defaultInfo) nbr ew).1).cnt ?_
        show setMap dist nbr _ u = _
        rw [hu, setMap_self]
      · refine ih _ _ _ u d ?_
        show setMap dist nbr _ u = _
        rw [setMap_ne _ _ _ _ hu]
        exact h
    · rw [hcons]
      exact ih _ _ _ u d h

/-- After the neighbor loop every processed neighbor has a recorded
distance. -/
theorem relaxAll_dist_some (lines : List Line) (stations : List Station) (e : Entry) :
    ∀ (adjList : List (Nat × Edge)) (dist : Nat → Option Nat)
      (info : Nat → Option Info) (pq : List Entry),
    ∀ q ∈ adjList,
      ∃ d2, (relaxAll lines stations e adjList dist info pq).1 q.1 = some d2 := by
  intro adjList
  induction adjList with
  | nil => intro dist info pq q hq; exact absurd hq (List.not_mem_nil q)
  | cons q0 rest ih =>
    obtain ⟨nbr, ew⟩ := q0
    intro dist info pq q hq
    simp only [relaxAll]
    rcases List.mem_cons.mp hq with rfl | hq2
    · rcases relaxStep_cases lines stations e nbr ew dist info pq with
        ⟨hcons, -⟩ | ⟨hcons, d0, hd0, -⟩
      · rw [hcons]
        refine relaxAll_dist_some_mono lines stations e rest _ _ _ nbr
          ((relaxed lines stations e ((info e.sid).getD defaultInfo) nbr ew).1).cnt ?_
        show setMap dist nbr _ nbr = _
        rw [setMap_self]
      · rw [hcons]
        exact relaxAll_dist_some_mono lines stations e rest _ _ _ nbr d0 hd0
    · rcases relaxStep_cases lines stations e nbr ew dist info pq with ⟨hcons, -⟩ | ⟨hcons, -⟩
      · rw [hcons]
        exact ih _ _ _ q hq2
      · rw [hcons]
        exact ih _ _ _ q hq2

/-- The neighbor loop preserves the distance bound on queue entries and the
unvisited-recorded-distance-has-a-fresh-entry property. -/
theorem relaxAll_BE (lines : List Line) (stations : List Station) (e : Entry) :
    ∀ (adjList : List (Nat × Edge)) (visited : List Nat)
      (dist : Nat → Option Nat) (info : Nat → Option Info) (pq : List Entry),
    (∀ x ∈ pq, ∃ d, dist x.sid = some d ∧ d ≤ x.cnt) →
    (∀ sid, sid ∉ visited → ∀ d, dist sid = some d →
      ∃ x ∈ pq, x.sid = sid ∧ x.cnt = d) →
    (∀ x ∈ (relaxAll lines stations e adjList dist info pq).2.2,
      ∃ d, (relaxAll lines stations e adjList dist info pq).1 x.sid = some d ∧ d ≤ x.cnt) ∧
    (∀ sid, sid ∉ visited → ∀ d,
      (relaxAll lines stations e adjList dist info pq).1 sid = some d →
      ∃ x ∈ (relaxAll lines stations e adjList dist info pq).2.2,
        x.sid = sid ∧ x.cnt = d) := by
  intro adjList
  induction adjList with
  | nil => intro visited dist info pq hB hE; exact ⟨hB, hE⟩
  | cons q0 rest ih =>
    obtain ⟨nbr, ew⟩ := q0
    intro visited dist info pq hB hE
    simp only [relaxAll]
    rcases relaxStep_cases lines stations e nbr ew dist info pq with ⟨hcons, hlt⟩ | ⟨hcons, -⟩
    · rw [hcons]
      apply ih
      · intro x hx
        have hx2 : x ∈ pq ++
            [(relaxed lines stations e ((info e.sid).getD defaultInfo) nbr ew).1] := hx
        rcases List.mem_append.mp hx2 with h3 | h3
        · obtain ⟨d0, hd0, hle0⟩ := hB x h3
          by_cases hxs : x.sid = nbr
          · refine ⟨((relaxed lines stations e ((info e.sid).getD defaultInfo) nbr ew).1).cnt,
              ?_, ?_⟩
            · show setMap dist nbr _ x.sid = _
              rw [hxs, setMap_self]
            · rw [hxs] at hd0
              rw [hd0] at hlt
              simp only [ltDist] at hlt
              have h4 := of_decide_eq_true hlt
              omega
          · refine ⟨d0, ?_, hle0⟩
            show setMap dist nbr _ x.sid = _
            rw [setMap_ne _ _ _ _ hxs]
            exact hd0
        · have h5 : x = (relaxed lines stations e ((info e.sid).getD defaultInfo) nbr ew).1 := by
            simpa using h3
          refine ⟨x.cnt, ?_, le_refl _⟩
          show setMap dist nbr _ x.sid = _
          rw [h5, relaxed_sid, setMap_self]
      · intro sid hnv d hds
        have hds2 : setMap dist nbr
            ((relaxed lines stations e ((info e.sid).getD defaultInfo) nbr ew).1).cnt sid =
            some d := hds
        by_cases hs : sid = nbr
        · rw [hs, setMap_self, Option.some.injEq] at hds2
          refine ⟨(relaxed lines stations e ((info e.sid).getD defaultInfo) nbr ew).1,
            ?_, ?_, ?_⟩
          · show _ ∈ pq ++ [_]
            exact List.mem_append.mpr (Or.inr (List.mem_cons_self _ _))
          · rw [relaxed_sid]
            exact hs.symm
          · exact hds2
        · rw [setMap_ne _ _ _ _ hs] at hds2
          obtain ⟨x, hx, hxs, hxc⟩ := hE sid hnv d hds2
          refine ⟨x, ?_, hxs, hxc⟩
          show x ∈ pq ++ [_]
          exact List.mem_append.mpr (Or.inl hx)
    · rw [hcons]
      exact ih visited dist info pq hB hE

/-- Sum of a pointwise sum of two maps. -/
theorem sum_map_add (f g : Nat → Nat) :
    ∀ V : List Nat, (V.map (fun u => f u + g u)).sum = (V.map f).sum + (V.map g).sum := by
  intro V
  induction V with
  | nil => rfl
  | cons a t ih =>
    simp only [List.map_cons, List.sum_cons]
    omega

/-- Over a duplicate-free list, an indicator of one value sums to at most 1. -/
theorem indicator_sum_le (v0 : Nat) :
    ∀ V : List Nat, V.Nodup →
    (V.map (fun u => if v0 = u then 1 else 0)).sum ≤ 1 := by
  intro V
  induction V with
  | nil => intro h; exact Nat.zero_le 1
  | cons a t ih =>
    intro hnd
    rw [List.nodup_cons] at hnd
    rw [List.map_cons, List.sum_cons]
    by_cases h : v0 = a
    · subst h
      have hz : (t.map (fun u => if v0 = u then 1 else 0)).sum = 0 := by
        apply List.sum_eq_zero
        intro x hx
        rw [List.mem_map] at hx
        obtain ⟨u, hu, rfl⟩ := hx
        rw [if_neg (fun hEq => hnd.1 (by rw [hEq]; exact hu))]
      rw [if_pos rfl, hz]
    · rw [if_neg h]
      have h2 := ih hnd.2
      omega

/-- Summed over distinct ids, the per-id edge counts are bounded by the total
number of edges (each edge's source is counted at most once). -/
theorem adj_sum_le :
    ∀ (edges : List (Nat × Nat × Edge)) (V : List Nat), V.Nodup →
    (V.map (fun u => edges.countP (fun t => decide (t.1 = u)))).sum ≤ edges.length := by
  intro edges
  induction edges with
  | nil =>
    intro V hnd
    refine le_trans (le_of_eq (List.sum_eq_zero ?_)) (Nat.zero_le _)
    intro x hx
    rw [List.mem_map] at hx
    obtain ⟨u, hu, rfl⟩ := hx
    rfl
  | cons t es ihe =>
    intro V hnd
    have hpt : ∀ u, (t :: es).countP (fun q => decide (q.1 = u)) =
        es.countP (fun q => decide (q.1 = u)) + (if t.1 = u then 1 else 0) := by
      intro u
      rw [List.countP_cons]
      congr 1
      by_cases h : t.1 = u
      · rw [if_pos (by simpa using h), if_pos h]
      · rw [if_neg (by simpa using h), if_neg h]
    simp only [hpt]
    rw [sum_map_add (fun u => es.countP (fun q => decide (q.1 = u)))
      (fun u => if t.1 = u then 1 else 0) V]
    refine le_trans (Nat.add_le_add (ihe V hnd) (indicator_sum_le t.1 V hnd)) ?_
    exact le_of_eq (List.length_cons t es).symm

/-- Removing one fresh member of a duplicate-free list from the unvisited
filter splits off exactly its summand. -/
theorem sum_filter_remove (f : Nat → Nat) (u : Nat) (vis : List Nat) :
    ∀ l : List Nat, l.Nodup → u ∈ l → u ∉ vis →
    ((l.filter (fun x => x ∉ u :: vis)).map f).sum + f u =
      ((l.filter (fun x => x ∉ vis)).map f).sum := by
  intro l
  induction l with
  | nil => intro _ hu _; exact absurd hu (List.not_mem_nil u)
  | cons a t ih =>
    intro hnd hu hnv
    rw [List.nodup_cons] at hnd
    rw [List.filter_cons, List.filter_cons]
    rcases List.mem_cons.mp hu with rfl | hut
    · have h1 : ¬ (decide (u ∉ u :: vis) = true) := by simp
      have h2 : decide (u ∉ vis) = true := by simpa using hnv
      rw [if_neg h1, if_pos h2]
      rw [List.map_cons, List.sum_cons]
      have h3 : t.filter (fun x => x ∉ u :: vis) = t.filter (fun x => x ∉ vis) := by
        apply List.filter_congr
        intro x hx
        have hxa : x ≠ u := fun hEq => hnd.1 (by rw [← hEq]; exact hx)
        simp [List.mem_cons, hxa]
      rw [h3]
      omega
    · have hne : a ≠ u := fun hEq => hnd.1 (by rw [hEq]; exact hut)
      by_cases hav : a ∈ vis
      · have h1 : ¬ (decide (a ∉ u :: vis) = true) := by
          simp [List.mem_cons, hav]
        have h2 : ¬ (decide (a ∉ vis) = true) := by simp [hav]
        rw [if_neg h1, if_neg h2]
        exact ih hnd.2 hut hnv
      · have h1 : decide (a ∉ u :: vis) = true := by
          simp [List.mem_cons, hav, hne]
        have h2 : decide (a ∉ vis) = true := by simpa using hav
        rw [if_pos h1, if_pos h2]
        rw [List.map_cons, List.sum_cons, List.map_cons, List.sum_cons]
        have h4 := ih hnd.2 hut hnv
        omega

/-- Growing the visited list can only shrink the filtered sum. -/
theorem sum_filter_mono (f : Nat → Nat) (u : Nat) (vis : List Nat) :
    ∀ l : List Nat,
    ((l.filter (fun x => x ∉ u :: vis)).map f).sum ≤
      ((l.filter (fun x => x ∉ vis)).map f).sum := by
  intro l
  induction l with
  | nil => exact le_refl _
  | cons a t ih =>
    rw [List.filter_cons, List.filter_cons]
    by_cases hav : a ∈ vis
    · have h1 : ¬ (decide (a ∉ u :: vis) = true) := by simp [List.mem_cons, hav]
      have h2 : ¬ (decide (a ∉ vis) = true) := by simp [hav]
      rw [if_neg h1, if_neg h2]
      exact ih
    · have h2 : decide (a ∉ vis) = true := by simpa using hav
      rw [if_pos h2]
      by_cases hau : a = u
      · have h1 : ¬ (decide (a ∉ u :: vis) = true) := by
          simp [List.mem_cons, hau]
        rw [if_neg h1]
        rw [List.map_cons, List.sum_cons]
        omega
      · have h1 : decide (a ∉ u :: vis) = true := by
          simp [List.mem_cons, hau, hav]
        rw [if_pos h1]
        rw [List.map_cons, List.sum_cons, List.map_cons, List.sum_cons]
        omega

/-- Marking a node visited never increases the potential. -/
theorem pot_mono (edges : List (Nat × Nat × Edge)) (s0 : Station) (u : Nat)
    (vis : List Nat) : potOf edges s0 (u :: vis) ≤ potOf edges s0 vis := by
  unfold potOf
  exact sum_filter_mono (fun v => (adjOf edges v).length) u vis _

/-- Marking a fresh enqueueable node visited removes exactly its adjacency
length from the potential. -/
theorem pot_remove (edges : List (Nat × Nat × Edge)) (s0 : Station) (u : Nat)
    (vis : List Nat) (hu : u ∈ idSetOf s0 edges) (hnv : u ∉ vis) :
    potOf edges s0 (u :: vis) + (adjOf edges u).length = potOf edges s0 vis := by
  unfold potOf
  exact sum_filter_remove (fun v => (adjOf edges v).length) u vis
    (idSetOf s0 edges).dedup (List.nodup_dedup _) (List.mem_dedup.mpr hu) hnv

/-- The initial potential is at most the number of edges. -/
theorem pot_bound (edges : List (Nat × Nat × Edge)) (s0 : Station) :
    potOf edges s0 [] ≤ edges.length := by
  unfold potOf
  have h1 : (idSetOf s0 edges).dedup.filter (fun u => u ∉ ([] : List Nat)) =
      (idSetOf s0 edges).dedup := by
    apply List.filter_eq_self.mpr
    intro x hx
    simp
  rw [h1]
  have h2 : ∀ u : Nat, (adjOf edges u).length =
      edges.countP (fun t => decide (t.1 = u)) := by
    intro u
    unfold adjOf
    rw [List.length_map]
    exact (List.countP_eq_length_filter _ _).symm
  simp only [h2]
  exact adj_sum_le edges _ (List.nodup_dedup _)

/-- Every iteration of the `while pq` loop strictly decreases the
termination measure. -/
theorem loopStep_measure (lines : List Line) (stations : List Station)
    (edges : List (Nat × Nat × Edge)) (endName : String) (s0 : Station)
    (s : RunState) (best : Option Candidate) (e : Entry) (rest : List Entry)
    (hpop : popMin s.pq = some (e, rest))
    (hc4 : ∀ x ∈ s.pq, x.sid ∈ idSetOf s0 edges) :
    measureOf edges s0 (loopStep lines stations edges endName e rest s best).1 + 1 ≤
      measureOf edges s0 s := by
  have hlen := popMin_length _ _ _ hpop
  obtain ⟨hmem, -, -, -⟩ := popMin_spec _ _ _ hpop
  unfold loopStep
  by_cases hv : e.sid ∈ s.visited
  · rw [if_pos hv]
    show rest.length + potOf edges s0 s.visited + 1 ≤
      s.pq.length + potOf edges s0 s.visited
    omega
  · rw [if_neg hv]
    have hpr := pot_remove edges s0 e.sid s.visited (hc4 e hmem) hv
    by_cases hdst : (station_id_to_obj stations e.sid).name = endName
    · rw [if_pos hdst]
      show rest.length + potOf edges s0 (e.sid :: s.visited) + 1 ≤
        s.pq.length + potOf edges s0 s.visited
      have hpm := pot_mono edges s0 e.sid s.visited
      omega
    · rw [if_neg hdst]
      show ((relaxAll lines stations e (adjOf edges e.sid) s.dist s.info rest).2.2).length +
          potOf edges s0 (e.sid :: s.visited) + 1 ≤
        s.pq.length + potOf edges s0 s.visited
      have h1 := relaxAll_pq_length lines stations e (adjOf edges e.sid) s.dist s.info rest
      omega

/-- Recording a completion candidate always leaves a candidate in place. -/
theorem updateBest_ne_none (best : Option Candidate) (c : Candidate) :
    updateBest best c ≠ none := by
  cases best with
  | none => exact fun h => Option.noConfusion h
  | some b =>
    have h2 : updateBest (some b) c = if c.cnt < b.cnt then some c else some b := rfl
    rw [h2]
    by_cases h3 : c.cnt < b.cnt
    · rw [if_pos h3]; exact fun h => Option.noConfusion h
    · rw [if_neg h3]; exact fun h => Option.noConfusion h

/-- One loop iteration never discards a recorded candidate. -/
theorem loopStep_best_none (lines : List Line) (stations : List Station)
    (edges : List (Nat × Nat × Edge)) (endName : String) (e : Entry)
    (rest : List Entry) (s : RunState) (best : Option Candidate)
    (h : (loopStep lines stations edges endName e rest s best).2 = none) :
    best = none := by
  unfold loopStep at h
  by_cases hv : e.sid ∈ s.visited
  · rw [if_pos hv] at h
    exact h
  · rw [if_neg hv] at h
    by_cases hdst : (station_id_to_obj stations e.sid).name = endName
    · rw [if_pos hdst] at h
      exact absurd h (updateBest_ne_none best _)
    · rw [if_neg hdst] at h
      exact h

/-- A whole run never discards a recorded candidate. -/
theorem runLoop_best_none (lines : List Line) (stations : List Station)
    (edges : List (Nat × Nat × Edge)) (endName : String) :
    ∀ (fuel : Nat) (s : RunState) (best : Option Candidate),
    runLoop lines stations edges endName fuel s best = none → best = none := by
  intro fuel
  induction fuel with
  | zero => intro s best h; exact h
  | succ n ihn =>
    intro s best h
    simp only [runLoop] at h
    cases hpop : popMin s.pq with
    | none => rw [hpop] at h; exact h
    | some pr =>
      obtain ⟨e, rest⟩ := pr
      rw [hpop] at h
      dsimp only at h
      exact loopStep_best_none lines stations edges endName e rest s best (ihn _ _ h)

/-- One loop iteration preserves the completeness invariant. -/
theorem loopStep_comp (lines : List Line) (stations : List Station)
    (edges : List (Nat × Nat × Edge)) (endName : String) (s0 : Station)
    (s : RunState) (best : Option Candidate) (e : Entry) (rest : List Entry)
    (hpop : popMin s.pq = some (e, rest))
    (hok : StateOK lines stations s0 edges s)
    (hcomp : CompInv stations edges s0 endName s best) :
    CompInv stations edges s0 endName
      (loopStep lines stations edges endName e rest s best).1
      (loopStep lines stations edges endName e rest s best).2 := by
  obtain ⟨hA, hB, hE⟩ := hok
  obtain ⟨hc1, hc2, hc3, hc4⟩ := hcomp
  obtain ⟨hmem, hsplit, hrest, -⟩ := popMin_spec _ _ _ hpop
  unfold loopStep
  by_cases hv : e.sid ∈ s.visited
  · rw [if_pos hv]
    have hmono : ∀ u, Reached s u → Reached { s with pq := rest } u := by
      intro u hr
      rcases hr with h | ⟨x, hx, hxs⟩
      · exact Or.inl h
      · rcases hsplit x hx with rfl | h2
        · exact Or.inl (by rw [← hxs]; exact hv)
        · exact Or.inr ⟨x, h2, hxs⟩
    exact ⟨hmono _ hc1, hc2, fun u hu hn p hp => hmono _ (hc3 u hu hn p hp),
      fun x hx => hc4 x (hrest x hx)⟩
  · rw [if_neg hv]
    by_cases hdst : (station_id_to_obj stations e.sid).name = endName
    · rw [if_pos hdst]
      have hmono : ∀ u, Reached s u →
          Reached { s with pq := rest, visited := e.sid :: s.visited } u := by
        intro u hr
        rcases hr with h | ⟨x, hx, hxs⟩
        · exact Or.inl (List.mem_cons_of_mem _ h)
        · rcases hsplit x hx with rfl | h2
          · exact Or.inl (by rw [← hxs]; exact List.mem_cons_self _ _)
          · exact Or.inr ⟨x, h2, hxs⟩
      refine ⟨hmono _ hc1, ?_, ?_, fun x hx => hc4 x (hrest x hx)⟩
      · intro u hu hn
        exact updateBest_ne_none best _
      · intro u hu hn p hp
        rcases List.mem_cons.mp hu with rfl | hu2
        · exact absurd hdst hn
        · exact hmono _ (hc3 u hu2 hn p hp)
    · rw [if_neg hdst]
      have hBr : ∀ x ∈ rest, ∃ d, s.dist x.sid = some d ∧ d ≤ x.cnt :=
        fun x hx => hB x (hrest x hx)
      have hEr : ∀ sid, sid ∉ (e.sid :: s.visited) → ∀ d, s.dist sid = some d →
          ∃ x ∈ rest, x.sid = sid ∧ x.cnt = d := by
        intro sid hnv d hds
        have hnv2 : sid ∉ s.visited := fun h => hnv (List.mem_cons_of_mem _ h)
        have hsidne : sid ≠ e.sid := fun hEq => hnv (hEq ▸ List.mem_cons_self _ _)
        obtain ⟨x, hx, hxs, hxc⟩ := hE sid hnv2 d hds
        have hxe : x ≠ e := fun hEq => hsidne (by rw [← hxs, hEq])
        rcases hsplit x hx with h5 | h5
        · exact absurd h5 hxe
        · exact ⟨x, h5, hxs, hxc⟩
      have hBE := relaxAll_BE lines stations e (adjOf edges e.sid) (e.sid :: s.visited)
        s.dist s.info rest hBr hEr
      have hsub := relaxAll_pq_subset lines stations e (adjOf edges e.sid) s.dist s.info rest
      have hmono : ∀ u, Reached s u → Reached
          ⟨(relaxAll lines stations e (adjOf edges e.sid) s.dist s.info rest).2.2,
           (relaxAll lines stations e (adjOf edges e.sid) s.dist s.info rest).1,
           (relaxAll lines stations e (adjOf edges e.sid) s.dist s.info rest).2.1,
           e.sid :: s.visited⟩ u := by
        intro u hr
        rcases hr with h | ⟨x, hx, hxs⟩
        · exact Or.inl (List.mem_cons_of_mem _ h)
        · rcases hsplit x hx with rfl | h2
          · exact Or.inl (by rw [← hxs]; exact List.mem_cons_self _ _)
          · exact Or.inr ⟨x, hsub x h2, hxs⟩
      refine ⟨hmono _ hc1, ?_, ?_, ?_⟩
      · intro u hu hn
        rcases List.mem_cons.mp hu with rfl | hu2
        · exact absurd hn hdst
        · exact hc2 u hu2 hn
      · intro u hu hn p hp
        rcases List.mem_cons.mp hu with rfl | hu2
        · obtain ⟨d2, hd2⟩ := relaxAll_dist_some lines stations e (adjOf edges e.sid)
            s.dist s.info rest p hp
          by_cases hpv : p.1 ∈ e.sid :: s.visited
          · exact Or.inl hpv
          · obtain ⟨x, hx, hxs, -⟩ := hBE.2 p.1 hpv d2 hd2
            exact Or.inr ⟨x, hx, hxs⟩
        · exact hmono _ (hc3 u hu2 hn p hp)
      · intro x hx
        rcases relaxAll_pq_chars lines stations e (adjOf edges e.sid) s.dist s.info rest
            x hx with h2 | ⟨q, hq, hqs⟩
        · exact hc4 x (hrest x h2)
        · obtain ⟨q1, q2⟩ := q
          have hedge : (e.sid, q1, q2) ∈ edges := mem_adjOf.mp hq
          rw [hqs]
          exact List.mem_cons_of_mem _ (List.mem_map.mpr ⟨(e.sid, q1, q2), hedge, rfl⟩)

/-- If a run drains its queue without recording a candidate, no walk through
the graph from the start node ends at a destination-named station.  The fuel
hypothesis guarantees the loop really drains the queue: the measure strictly
decreases each iteration. -/
theorem runLoop_none_walks (lines : List Line) (stations : List Station)
    (edges : List (Nat × Nat × Edge)) (endName : String) (s0 : Station)
    (src : String) (hs0 : s0 ∈ station_map stations src) :
    ∀ (fuel : Nat) (s : RunState) (best : Option Candidate),
    StateOK lines stations s0 edges s →
    BestOK lines stations src edges best →
    CompInv stations edges s0 endName s best →
    measureOf edges s0 s < fuel →
    runLoop lines stations edges endName fuel s best = none →
    ∀ tr, TraceFrom edges s0.id tr →
      (station_id_to_obj stations (traceEnd s0.id tr)).name ≠ endName := by
  intro fuel
  induction fuel with
  | zero =>
    intro s best _ _ _ hmu
    exact absurd hmu (Nat.not_lt_zero _)
  | succ n ih =>
    intro s best hok hbest hcomp hmu hrun
    simp only [runLoop] at hrun
    cases hpop : popMin s.pq with
    | none =>
      rw [hpop] at hrun
      dsimp only at hrun
      subst hrun
      obtain ⟨hc1, hc2, hc3, -⟩ := hcomp
      have hpq : s.pq = [] := popMin_none _ hpop
      have hreach_vis : ∀ u, Reached s u → u ∈ s.visited := by
        intro u hr
        rcases hr with h | ⟨x, hx, -⟩
        · exact h
        · rw [hpq] at hx
          exact absurd hx (List.not_mem_nil x)
      have hvis_walk : ∀ (tr : List (Nat × Edge)) (u : Nat), u ∈ s.visited →
          TraceFrom edges u tr → traceEnd u tr ∈ s.visited := by
        intro tr
        induction tr with
        | nil => intro u hu _; exact hu
        | cons q t iht =>
          obtain ⟨nbr, ew⟩ := q
          intro u hu hT
          obtain ⟨hm, h2⟩ := hT
          have hname : (station_id_to_obj stations u).name ≠ endName := by
            intro hEq
            exact hc2 u hu hEq rfl
          have hr : Reached s nbr := hc3 u hu hname (nbr, ew) (mem_adjOf.mpr hm)
          exact iht nbr (hreach_vis nbr hr) h2
      intro tr htr hname
      have h0 : s0.id ∈ s.visited := hreach_vis _ hc1
      exact hc2 _ (hvis_walk tr s0.id h0 htr) hname rfl
    | some pr =>
      obtain ⟨e, rest⟩ := pr
      rw [hpop] at hrun
      dsimp only at hrun
      have hpres := loopStep_preserves lines stations edges endName s0 src hs0
        s best e rest hpop hok hbest
      have hcomp2 := loopStep_comp lines stations edges endName s0 s best e rest
        hpop hok hcomp
      have hmu2 := loopStep_measure lines stations edges endName s0 s best e rest
        hpop hcomp.2.2.2
      exact ih (loopStep lines stations edges endName e rest s best).1
        (loopStep lines stations edges endName e rest s best).2
        hpres.1 hpres.2 hcomp2 (by omega) hrun

/-- A name carried by some station record has a nonempty name-index entry. -/
theorem stationExists_station_map (stations : List Station) (n : String)
    (h : stationExists stations n = true) : station_map stations n ≠ [] := by
  unfold stationExists at h
  rw [List.any_eq_true] at h
  obtain ⟨st, hst, hname⟩ := h
  intro hEq
  have hmem : st ∈ station_map stations n := List.mem_filter.mpr ⟨hst, hname⟩
  rw [hEq] at hmem
  exact absurd hmem (List.not_mem_nil st)

/-- If folding the per-start-node runs yields no candidate, every single run
(started from no candidate) yields none. -/
theorem foldl_runLoop_none (lines : List Line) (stations : List Station)
    (edges : List (Nat × Nat × Edge)) (endName : String) :
    ∀ (starts : List Station) (b : Option Candidate),
    starts.foldl (fun best st =>
      runLoop lines stations edges endName (searchFuel stations edges)
        (initState st) best) b = none →
    b = none ∧ ∀ st ∈ starts,
      runLoop lines stations edges endName (searchFuel stations edges)
        (initState st) none = none := by
  intro starts
  induction starts with
  | nil =>
    intro b h
    exact ⟨h, fun st hst => absurd hst (List.not_mem_nil st)⟩
  | cons st t ih =>
    intro b h
    rw [List.foldl_cons] at h
    obtain ⟨h1, h2⟩ := ih _ h
    have hb : b = none := runLoop_best_none lines stations edges endName _ _ _ h1
    refine ⟨hb, ?_⟩
    intro st2 hst2
    rcases List.mem_cons.mp hst2 with rfl | hmem
    · rw [hb] at h1
      exact h1
    · exact h2 st2 hmem

/-- Completeness of the search: when `find_shortest_path` returns `none` on
existing names, no walk through the built graph from any source-named station
ends at a destination-named station. -/
theorem find_shortest_path_none (lines : List Line) (stations : List Station)
    (src dst : String)
    (hnone : find_shortest_path lines stations src dst = none)
    (hsrc : station_map stations src ≠ [])
    (hdst : station_map stations dst ≠ []) :
    ∀ s0 ∈ station_map stations src, ∀ tr,
      TraceFrom (build_graph lines stations) s0.id tr →
      (station_id_to_obj stations (traceEnd s0.id tr)).name ≠ dst := by
  unfold find_shortest_path at hnone
  have hguard : ¬ (((station_map stations src).isEmpty ||
      (station_map stations dst).isEmpty) = true) := by
    simp [List.isEmpty_iff, hsrc, hdst]
  rw [if_neg hguard] at hnone
  cases hfold : (station_map stations src).foldl
      (fun best st =>
        runLoop lines stations (build_graph lines stations) dst
          (searchFuel stations (build_graph lines stations)) (initState st) best)
      none with
  | some b =>
    rw [hfold] at hnone
    dsimp only at hnone
    exact Option.noConfusion hnone
  | none =>
    intro s0 hs0 tr htr hname
    obtain ⟨-, hruns⟩ := foldl_runLoop_none lines stations (build_graph lines stations)
      dst (station_map stations src) none hfold
    have hrun := hruns s0 hs0
    have hinit_comp : CompInv stations (build_graph lines stations) s0 dst
        (initState s0) none := by
      refine ⟨?_, ?_, ?_, ?_⟩
      · exact Or.inr ⟨⟨0, s0.id, [s0.id], 0, 0, s0.line_id, 1⟩,
          List.mem_cons_self _ _, rfl⟩
      · intro u hu
        exact absurd hu (List.not_mem_nil u)
      · intro u hu
        exact absurd hu (List.not_mem_nil u)
      · intro x hx
        have hx2 : x = ⟨0, s0.id, [s0.id], 0, 0, s0.line_id, 1⟩ := by
          simpa [initState] using hx
        rw [hx2]
        exact List.mem_cons_self _ _
    have hmu : measureOf (build_graph lines stations) s0 (initState s0) <
        searchFuel stations (build_graph lines stations) := by
      have h2 := pot_bound (build_graph lines stations) s0
      have h3 : measureOf (build_graph lines stations) s0 (initState s0) =
          1 + potOf (build_graph lines stations) s0 [] := rfl
      rw [h3]
      unfold searchFuel
      have h4 : (build_graph lines stations).length + 1 ≤
          (stations.length + 1) * ((build_graph lines stations).length + 1) :=
        Nat.le_mul_of_pos_left _ (by omega)
      omega
    have hbestok : BestOK lines stations src (build_graph lines stations) none :=
      fun c hc => Option.noConfusion hc
    exact runLoop_none_walks lines stations (build_graph lines stations) dst s0 src hs0
      (searchFuel stations (build_graph lines stations)) (initState s0) none
      (initState_ok lines stations s0 (build_graph lines stations)) hbestok hinit_comp
      hmu hrun tr htr hname

/-! ## Claim C8: unknown-station precedence over not-found -/

/-- Claim C8: for distinct names, a missing name always yields the
unknown-station error naming a missing station (the source is checked first),
and the not-found outcome occurs only when both names exist but no path
connects them: no walk through the built graph from any source-named station
ends at a destination-named station. -/
theorem claim_C8 (lines : List Line) (stations : List Station) (s d : String)
    (hne : s ≠ d) :
    ((stationExists stations s = false ∨ stationExists stations d = false) →
      ∃ m, find_metro_route lines stations s d = RouteOutcome.unknownStation m ∧
        stationExists stations m = false) ∧
    (find_metro_route lines stations s d = RouteOutcome.notFound →
      stationExists stations s = true ∧ stationExists stations d = true ∧
      ∀ s0 ∈ station_map stations s, ∀ tr,
        TraceFrom (build_graph lines stations) s0.id tr →
        (station_id_to_obj stations (traceEnd s0.id tr)).name ≠ d) := by
  unfold find_metro_route
  rw [if_neg hne]
  constructor
  · intro hmiss
    by_cases hs : stationExists stations s = false
    · rw [if_pos hs]
      exact ⟨s, rfl, hs⟩
    · have hs' : stationExists stations s = true := by
        cases h : stationExists stations s
        · exact absurd h hs
        · rfl
      rcases hmiss with h | h
      · exact absurd h hs
      · rw [if_neg hs, if_pos h]
        exact ⟨d, rfl, h⟩
  · intro h
    by_cases hs : stationExists stations s = false
    · rw [if_pos hs] at h
      exact RouteOutcome.noConfusion h
    · rw [if_neg hs] at h
      have hs' : stationExists stations s = true := by
        cases h2 : stationExists stations s
        · exact absurd h2 hs
        · rfl
      by_cases hd : stationExists stations d = false
      · rw [if_pos hd] at h
        exact RouteOutcome.noConfusion h
      · rw [if_neg hd] at h
        have hd' : stationExists stations d = true := by
          cases h2 : stationExists stations d
          · exact absurd h2 hd
          · rfl
        refine ⟨hs', hd', ?_⟩
        cases hsp : find_shortest_path lines stations s d with
        | none =>
          exact find_shortest_path_none lines stations s d hsp
            (stationExists_station_map stations s hs')
            (stationExists_station_map stations d hd')
        | some r => rw [hsp] at h; exact RouteOutcome.noConfusion h

/-- Witness for claim C8: "Q" is missing (source side), and the endpoint
names the missing station. -/
theorem claim_C8_witness :
    ∃ m, find_metro_route [exRed] [exA] "Q" "A" = RouteOutcome.unknownStation m ∧
      stationExists [exA] m = false :=
  (claim_C8 [exRed] [exA] "Q" "A" (by decide)).1 (Or.inl (by decide))
